import Mathlib

/-!
# Consistent hashing rings (`main.go`)

A shallow embedding of the two hash rings of `main.go`: the basic ring
`ConsistentHasher` (one slot per node) and the virtual-node ring
`ConsistentHasherV` (`vnodesPerNode` slots per node), together with the
library routines they call (`md5.Sum`, `binary.BigEndian.Uint64`,
`slices.BinarySearch`, `slices.Insert`, `slices.Delete`, `strings.Cut`,
`fmt.Sprintf`).

Conventions of the embedding:

* a Go `string` is its byte sequence, a `List Nat` (`GoString`); `"a@0"` is
  `[97, 64, 48]`;
* `uint64` values are natural numbers, `int` is a 64-bit signed integer: the
  conversion `int(u)` is `toInt u` and `int` subtraction wraps (`wrapInt`);
* a Go `error` result is an `Option Error` (`none` is `nil`), returned next to
  the receiver's state after the call, since a call that fails may already
  have changed the ring;
* a run-time panic is the `Except.error` of the result.
-/

namespace ConsistentHashing

/-! ## Strings and integers -/

/-- A Go string: a sequence of bytes. -/
abbrev GoString := List Nat

/-- The byte `'@'`. -/
def atSign : Nat := 64

/-- The ways a call can panic. -/
inductive Panic where
  | noNodes
  | invalidVnode
  | divideByZero
  | outOfRange
deriving DecidableEq, Repr

/-- The three errors built with `fmt.Errorf` in `main.go`. -/
inductive Error where
  | ringSizeExceeded
  | collision
  | vnodeNotFound
deriving DecidableEq, Repr

/-- The conversion `int(u)` of a `uint64` to a 64-bit `int`: values from
`2^63` on become negative. -/
def toInt (u : Nat) : Int :=
  if u % 2 ^ 64 < 2 ^ 63 then ((u % 2 ^ 64 : Nat) : Int) else ((u % 2 ^ 64 : Nat) : Int) - 2 ^ 64

/-- The result of 64-bit `int` arithmetic: the exact value wrapped into
`[-2^63, 2^63)`. -/
def wrapInt (z : Int) : Int := (z + 2 ^ 63) % 2 ^ 64 - 2 ^ 63

/-- Decimal digits of `n`, least significant first (`fuel` bounds the number
of digits). -/
def digitsRev : Nat → Nat → List Nat
  | 0, _ => []
  | fuel + 1, n => if n < 10 then [48 + n] else (48 + n % 10) :: digitsRev fuel (n / 10)

/-- The `%v` rendering of a non-negative `int`: decimal, no leading zero. -/
def itoa (n : Nat) : GoString := (digitsRev (n + 1) n).reverse

/-- The label `fmt.Sprintf("%v@%v", node, i)` of virtual node `i` of `node`. -/
def vnode (node : GoString) (i : Nat) : GoString := node ++ atSign :: itoa i

/-- The call `strings.Cut(s, "@")` for a one-byte separator: the text before
and after the first separator, and whether there is one. -/
def Cut (s : GoString) (sep : Nat) : GoString × GoString × Bool :=
  if s.indexOf sep < s.length then (s.take (s.indexOf sep), s.drop (s.indexOf sep + 1), true)
  else (s, [], false)

/-! ## MD5 (`crypto/md5`) -/

/-- The sine-derived constants of MD5. -/
def md5K : List Nat :=
  [0xd76aa478, 0xe8c7b756, 0x242070db, 0xc1bdceee, 0xf57c0faf, 0x4787c62a, 0xa8304613, 0xfd469501,
   0x698098d8, 0x8b44f7af, 0xffff5bb1, 0x895cd7be, 0x6b901122, 0xfd987193, 0xa679438e, 0x49b40821,
   0xf61e2562, 0xc040b340, 0x265e5a51, 0xe9b6c7aa, 0xd62f105d, 0x02441453, 0xd8a1e681, 0xe7d3fbc8,
   0x21e1cde6, 0xc33707d6, 0xf4d50d87, 0x455a14ed, 0xa9e3e905, 0xfcefa3f8, 0x676f02d9, 0x8d2a4c8a,
   0xfffa3942, 0x8771f681, 0x6d9d6122, 0xfde5380c, 0xa4beea44, 0x4bdecfa9, 0xf6bb4b60, 0xbebfbc70,
   0x289b7ec6, 0xeaa127fa, 0xd4ef3085, 0x04881d05, 0xd9d4d039, 0xe6db99e5, 0x1fa27cf8, 0xc4ac5665,
   0xf4292244, 0x432aff97, 0xab9423a7, 0xfc93a039, 0x655b59c3, 0x8f0ccc92, 0xffeff47d, 0x85845dd1,
   0x6fa87e4f, 0xfe2ce6e0, 0xa3014314, 0x4e0811a1, 0xf7537e82, 0xbd3af235, 0x2ad7d2bb, 0xeb86d391]

/-- The per-step left rotations of MD5. -/
def md5S : List Nat :=
  [7, 12, 17, 22, 7, 12, 17, 22, 7, 12, 17, 22, 7, 12, 17, 22,
   5, 9, 14, 20, 5, 9, 14, 20, 5, 9, 14, 20, 5, 9, 14, 20,
   4, 11, 16, 23, 4, 11, 16, 23, 4, 11, 16, 23, 4, 11, 16, 23,
   6, 10, 15, 21, 6, 10, 15, 21, 6, 10, 15, 21, 6, 10, 15, 21]

/-- Left rotation of a 32-bit word. -/
def rotl32 (x c : Nat) : Nat := ((x <<< c) ||| (x >>> (32 - c))) % 2 ^ 32

/-- Bitwise complement of a 32-bit word. -/
def not32 (x : Nat) : Nat := x ^^^ 0xffffffff

/-- The four 32-bit chaining words of MD5. -/
structure Md5State where
  a : Nat
  b : Nat
  c : Nat
  d : Nat
deriving DecidableEq, Repr

/-- Step `i` (of 64) of the MD5 compression function on the 16 message words `m`. -/
def md5Step (m : List Nat) (st : Md5State) (i : Nat) : Md5State :=
  let f :=
    if i < 16 then (st.b &&& st.c) ||| (not32 st.b &&& st.d)
    else if i < 32 then (st.d &&& st.b) ||| (not32 st.d &&& st.c)
    else if i < 48 then st.b ^^^ st.c ^^^ st.d
    else st.c ^^^ (st.b ||| not32 st.d)
  let g :=
    if i < 16 then i
    else if i < 32 then (5 * i + 1) % 16
    else if i < 48 then (3 * i + 5) % 16
    else (7 * i) % 16
  let f2 := (f + st.a + md5K.getD i 0 + m.getD g 0) % 2 ^ 32
  { a := st.d, b := (st.b + rotl32 f2 (md5S.getD i 0)) % 2 ^ 32, c := st.b, d := st.c }

/-- A little-endian word from its bytes. -/
def leWord (bs : List Nat) : Nat :=
  bs.foldr (fun b acc => b % 256 + 256 * acc) 0

/-- The `k` low bytes of `x`, least significant first. -/
def leBytes : Nat → Nat → List Nat
  | 0, _ => []
  | k + 1, x => x % 256 :: leBytes k (x / 256)

/-- The first `k` little-endian 32-bit words of a byte sequence. -/
def words : Nat → List Nat → List Nat
  | 0, _ => []
  | k + 1, bs => leWord (bs.take 4) :: words k (bs.drop 4)

/-- The MD5 compression of one 64-byte block. -/
def md5Block (st : Md5State) (block : List Nat) : Md5State :=
  let m := words 16 block
  let r := (List.range 64).foldl (md5Step m) st
  { a := (st.a + r.a) % 2 ^ 32, b := (st.b + r.b) % 2 ^ 32,
    c := (st.c + r.c) % 2 ^ 32, d := (st.d + r.d) % 2 ^ 32 }

/-- The compression of the first `k` blocks of a byte sequence. -/
def md5Blocks : Nat → Md5State → List Nat → Md5State
  | 0, st, _ => st
  | k + 1, st, bs => md5Blocks k (md5Block st (bs.take 64)) (bs.drop 64)

/-- MD5 padding: a `0x80` byte, zeros up to 56 modulo 64, the bit length. -/
def md5Pad (msg : List Nat) : List Nat :=
  msg ++ [0x80] ++ List.replicate ((119 - msg.length % 64) % 64) 0
    ++ leBytes 8 ((8 * msg.length) % 2 ^ 64)

/-- The 16-byte digest `md5.Sum(msg)`. -/
def md5Sum (msg : List Nat) : List Nat :=
  let p := md5Pad msg
  let st := md5Blocks (p.length / 64) ⟨0x67452301, 0xefcdab89, 0x98badcfe, 0x10325476⟩ p
  leBytes 4 st.a ++ leBytes 4 st.b ++ leBytes 4 st.c ++ leBytes 4 st.d

/-- The value `binary.BigEndian.Uint64(bs)` of eight bytes. -/
def bigEndianUint64 (bs : List Nat) : Nat := bs.foldl (fun acc b => 256 * acc + b % 256) 0

/-- The 64-bit value `digestHigh ^ digestLow` that `hashItem` reduces. -/
def digestXor (item : GoString) : Nat :=
  let digest := md5Sum item
  let digestHigh := bigEndianUint64 ((digest.drop 8).take 8)
  let digestLow := bigEndianUint64 (digest.take 8)
  digestHigh ^^^ digestLow

/-- The function `hashItem`: the two halves of the MD5 digest, xor-ed, modulo
`nslots`; the `%` panics when `nslots` is zero. -/
def hashItem (item : GoString) (nslots : Nat) : Except Panic Nat :=
  if nslots = 0 then .error .divideByZero else .ok (digestXor item % nslots)

/-! ## Slices -/

/-- The loop of `slices.BinarySearch` on `[i, j)`; every iteration shrinks
the interval, so `j - i` iterations suffice. -/
def binarySearchLoop (x : List Nat) (target : Nat) : Nat → Nat → Nat → Nat
  | 0, i, _ => i
  | fuel + 1, i, j =>
    if i < j then
      let h := (i + j) / 2
      if x.getD h 0 < target then binarySearchLoop x target fuel (h + 1) j
      else binarySearchLoop x target fuel i h
    else i

/-- The call `slices.BinarySearch(x, target)`: the position found and whether
the target is there. -/
def BinarySearch (x : List Nat) (target : Nat) : Nat × Bool :=
  let i := binarySearchLoop x target x.length 0 x.length
  (i, decide (i < x.length) && decide (x.getD i 0 = target))

/-- The call `slices.Insert(s, i, v)`; it panics when `i > len(s)`. -/
def Insert {α : Type} (s : List α) (i : Nat) (v : α) : Except Panic (List α) :=
  if i ≤ s.length then .ok (s.take i ++ v :: s.drop i) else .error .outOfRange

/-- The call `slices.Delete(s, i, j)`; it panics unless `i ≤ j ≤ len(s)`. -/
def Delete {α : Type} (s : List α) (i j : Nat) : Except Panic (List α) :=
  if i ≤ j ∧ j ≤ s.length then .ok (s.take i ++ s.drop j) else .error .outOfRange

/-- The function `nodeFromVnode`: the text before the first `'@'`. -/
def nodeFromVnode (vnodeName : GoString) : Except Panic GoString :=
  match Cut vnodeName atSign with
  | (node, _, found) => if found then .ok node else .error .invalidVnode

/-! ## The basic ring -/

/-- The struct `ConsistentHasher`. -/
structure ConsistentHasher where
  nodes : List GoString
  slots : List Nat
  ringSize : Nat
deriving DecidableEq, Repr

/-- The constructor `NewConsistentHasher`. -/
def NewConsistentHasher (ringSize : Nat) : ConsistentHasher :=
  { nodes := [], slots := [], ringSize := ringSize }

/-- The method `(*ConsistentHasher).AddNode`. -/
def ConsistentHasher.AddNode (ch : ConsistentHasher) (node : GoString) :
    Except Panic (ConsistentHasher × Option Error) :=
  if (ch.nodes.length : Int) ≥ toInt ch.ringSize then .ok (ch, some .ringSizeExceeded)
  else
    match hashItem node ch.ringSize with
    | .error p => .error p
    | .ok nh =>
      if (BinarySearch ch.slots nh).2 then .ok (ch, some .collision)
      else
        match Insert ch.slots (BinarySearch ch.slots nh).1 nh with
        | .error p => .error p
        | .ok slots =>
          match Insert ch.nodes (BinarySearch ch.slots nh).1 node with
          | .error p => .error p
          | .ok nodes => .ok ({ ch with slots := slots, nodes := nodes }, none)

/-- The method `(*ConsistentHasher).FindNodeFor`. -/
def ConsistentHasher.FindNodeFor (ch : ConsistentHasher) (item : GoString) :
    Except Panic GoString :=
  if ch.nodes.length = 0 then .error .noNodes
  else
    match hashItem item ch.ringSize with
    | .error p => .error p
    | .ok ih =>
      let slotIndex := (BinarySearch ch.slots ih).1
      let slotIndex := if slotIndex = ch.slots.length then 0 else slotIndex
      match ch.nodes[slotIndex]? with
      | some node => .ok node
      | none => .error .outOfRange

/-! ## The virtual-node ring -/

/-- The struct `ConsistentHasherV`. -/
structure ConsistentHasherV where
  nodes : List GoString
  slots : List Nat
  ringSize : Nat
  vnodesPerNode : Int
deriving DecidableEq, Repr

/-- The constructor `NewConsistentHasherVWithVNodes`. -/
def NewConsistentHasherVWithVNodes (ringSize : Nat) (vnodesPerNode : Int) : ConsistentHasherV :=
  { nodes := [], slots := [], ringSize := ringSize, vnodesPerNode := vnodesPerNode }

/-- The constructor `NewConsistentHasherV`: ten virtual nodes per node. -/
def NewConsistentHasherV (ringSize : Nat) : ConsistentHasherV :=
  { nodes := [], slots := [], ringSize := ringSize, vnodesPerNode := 10 }

/-- The loop of `(*ConsistentHasherV).AddNode` over the remaining indices. -/
def ConsistentHasherV.addLoop (ch : ConsistentHasherV) (node : GoString) :
    List Nat → Except Panic (ConsistentHasherV × Option Error)
  | [] => .ok (ch, none)
  | i :: rest =>
    match hashItem (vnode node i) ch.ringSize with
    | .error p => .error p
    | .ok nh =>
      if (BinarySearch ch.slots nh).2 then .ok (ch, some .collision)
      else
        match Insert ch.slots (BinarySearch ch.slots nh).1 nh with
        | .error p => .error p
        | .ok slots =>
          match Insert ch.nodes (BinarySearch ch.slots nh).1 (vnode node i) with
          | .error p => .error p
          | .ok nodes =>
            ConsistentHasherV.addLoop { ch with slots := slots, nodes := nodes } node rest

/-- The method `(*ConsistentHasherV).AddNode`. -/
def ConsistentHasherV.AddNode (ch : ConsistentHasherV) (node : GoString) :
    Except Panic (ConsistentHasherV × Option Error) :=
  if (ch.nodes.length : Int) ≥ wrapInt (toInt ch.ringSize - ch.vnodesPerNode) then
    .ok (ch, some .ringSizeExceeded)
  else ch.addLoop node (List.range ch.vnodesPerNode.toNat)

/-- The loop of `(*ConsistentHasherV).RemoveNode` over the remaining indices. -/
def ConsistentHasherV.removeLoop (ch : ConsistentHasherV) (node : GoString) :
    List Nat → Except Panic (ConsistentHasherV × Option Error)
  | [] => .ok (ch, none)
  | i :: rest =>
    match hashItem (vnode node i) ch.ringSize with
    | .error p => .error p
    | .ok nh =>
      if (BinarySearch ch.slots nh).2 then
        match Delete ch.slots (BinarySearch ch.slots nh).1 ((BinarySearch ch.slots nh).1 + 1) with
        | .error p => .error p
        | .ok slots =>
          match Delete ch.nodes (BinarySearch ch.slots nh).1 ((BinarySearch ch.slots nh).1 + 1) with
          | .error p => .error p
          | .ok nodes =>
            ConsistentHasherV.removeLoop { ch with slots := slots, nodes := nodes } node rest
      else .ok (ch, some .vnodeNotFound)

/-- The method `(*ConsistentHasherV).RemoveNode`. -/
def ConsistentHasherV.RemoveNode (ch : ConsistentHasherV) (node : GoString) :
    Except Panic (ConsistentHasherV × Option Error) :=
  ch.removeLoop node (List.range ch.vnodesPerNode.toNat)

/-- The method `(*ConsistentHasherV).FindNodeFor`. -/
def ConsistentHasherV.FindNodeFor (ch : ConsistentHasherV) (item : GoString) :
    Except Panic GoString :=
  if ch.nodes.length = 0 then .error .noNodes
  else
    match hashItem item ch.ringSize with
    | .error p => .error p
    | .ok ih =>
      let slotIndex := (BinarySearch ch.slots ih).1
      let slotIndex := if slotIndex = ch.slots.length then 0 else slotIndex
      match ch.nodes[slotIndex]? with
      | some vnodeName => nodeFromVnode vnodeName
      | none => .error .outOfRange

/-! ## Sequences of calls -/

/-- The basic ring after the calls `AddNode(n)` for `n` in the list, in order,
with the error each call returned. -/
def ConsistentHasher.run (ch : ConsistentHasher) :
    List GoString → Except Panic (ConsistentHasher × List (Option Error))
  | [] => .ok (ch, [])
  | n :: rest =>
    match ch.AddNode n with
    | .error p => .error p
    | .ok (ch1, e) =>
      match ConsistentHasher.run ch1 rest with
      | .error p => .error p
      | .ok (ch2, es) => .ok (ch2, e :: es)

/-- A call on the virtual-node ring. -/
inductive Call where
  | add (node : GoString)
  | remove (node : GoString)
deriving DecidableEq, Repr

/-- One call on the virtual-node ring. -/
def ConsistentHasherV.step (ch : ConsistentHasherV) :
    Call → Except Panic (ConsistentHasherV × Option Error)
  | .add n => ch.AddNode n
  | .remove n => ch.RemoveNode n

/-- The virtual-node ring after a sequence of calls, with the error each call
returned. -/
def ConsistentHasherV.run (ch : ConsistentHasherV) :
    List Call → Except Panic (ConsistentHasherV × List (Option Error))
  | [] => .ok (ch, [])
  | c :: rest =>
    match ch.step c with
    | .error p => .error p
    | .ok (ch1, e) =>
      match ConsistentHasherV.run ch1 rest with
      | .error p => .error p
      | .ok (ch2, es) => .ok (ch2, e :: es)

deriving instance DecidableEq for Except

/-- The `(slot, label)` pairs of a ring, in ring order. -/
def entries (slots : List Nat) (nodes : List GoString) : List (Nat × GoString) :=
  List.zip slots nodes

/-- A strictly increasing slot sequence. -/
def StrictlyIncreasing (slots : List Nat) : Prop := slots.Pairwise (· < ·)

instance (slots : List Nat) : Decidable (StrictlyIncreasing slots) := by
  unfold StrictlyIncreasing; infer_instance

/-- Every slot is the hash of the label stored next to it. -/
def Aligned (slots : List Nat) (nodes : List GoString) (ringSize : Nat) : Prop :=
  ∀ p ∈ entries slots nodes, hashItem p.2 ringSize = .ok p.1

/-- The representation invariant of both rings: strictly increasing slots,
as many labels as slots, every slot the hash of its label. -/
def WellFormed (slots : List Nat) (nodes : List GoString) (ringSize : Nat) : Prop :=
  StrictlyIncreasing slots ∧ slots.length = nodes.length ∧ Aligned slots nodes ringSize

/-! ## Auxiliary definitions of the proofs -/

/-- The number written by a digit sequence, least significant digit first. -/
def valRev (ds : List Nat) : Nat := ds.foldr (fun d acc => (d - 48) + 10 * acc) 0

/-- The index `FindNodeFor` reads: the position binary search reports,
wrapped to 0 at the end of the slice. -/
def lookupIndex (slots : List Nat) (h : Nat) : Nat :=
  if (BinarySearch slots h).1 = slots.length then 0 else (BinarySearch slots h).1

/-- The lookup rule in the words of the specification: `idx` is the index of
the smallest slot `≥ h` if there is one, and 0 if `h` is greater than every
slot. -/
def LookupRule (slots : List Nat) (h idx : Nat) : Prop :=
  ((∃ s ∈ slots, h ≤ s) →
    ∃ hidx : idx < slots.length, h ≤ slots[idx] ∧ ∀ s ∈ slots, h ≤ s → slots[idx] ≤ s) ∧
  ((∀ s ∈ slots, s < h) → idx = 0)

/-- The values of the Go type `int` (64 bits, signed). -/
def IsInt (z : Int) : Prop := -2 ^ 63 ≤ z ∧ z < 2 ^ 63

instance (z : Int) : Decidable (IsInt z) := by
  unfold IsInt; infer_instance

/-- The slot of a label on a ring of size `ringSize`: the value `hashItem`
returns when `ringSize` is not zero. -/
def slotOf (ringSize : Nat) (label : GoString) : Nat := digestXor label % ringSize

/-- The pairs that the loop of `AddNode(node)` inserts for the indices `is`. -/
def newEntries (ringSize : Nat) (node : GoString) (is : List Nat) : List (Nat × GoString) :=
  is.map (fun i => (slotOf ringSize (vnode node i), vnode node i))

/-- The slot `s` owns the hash `h` on a ring with the slots `slots`: it is the
smallest slot `≥ h`, or the smallest slot of all when `h` is greater than every
slot. -/
def Owner (slots : List Nat) (h s : Nat) : Prop :=
  s ∈ slots ∧
    ((h ≤ s ∧ ∀ t ∈ slots, h ≤ t → s ≤ t) ∨ ((∀ t ∈ slots, t < h) ∧ ∀ t ∈ slots, s ≤ t))

/-- The order of the pairs of a ring: by slot. -/
def slotLt (p q : Nat × GoString) : Prop := p.1 < q.1

set_option maxRecDepth 1000000

theorem getD_lt_of_sorted {x : List Nat} (hs : StrictlyIncreasing x) {a b : Nat}
    (hab : a < b) (hb : b < x.length) : x.getD a 0 < x.getD b 0 := by
  have ha : a < x.length := lt_trans hab hb
  rw [List.getD_eq_getElem x 0 ha, List.getD_eq_getElem x 0 hb]
  exact (List.pairwise_iff_getElem.mp hs) a b ha hb hab

theorem getD_le_of_sorted {x : List Nat} (hs : StrictlyIncreasing x) {a b : Nat}
    (hab : a ≤ b) (hb : b < x.length) : x.getD a 0 ≤ x.getD b 0 := by
  rcases Nat.eq_or_lt_of_le hab with h | h
  · subst h; exact le_refl _
  · exact le_of_lt (getD_lt_of_sorted hs h hb)

theorem binarySearchLoop_spec {x : List Nat} (hs : StrictlyIncreasing x) (t : Nat) :
    ∀ (fuel i j : Nat), i ≤ j → j ≤ x.length → j - i ≤ fuel →
      (∀ k, k < i → x.getD k 0 < t) → (∀ k, j ≤ k → k < x.length → t ≤ x.getD k 0) →
      i ≤ binarySearchLoop x t fuel i j ∧ binarySearchLoop x t fuel i j ≤ j ∧
      (∀ k, k < binarySearchLoop x t fuel i j → x.getD k 0 < t) ∧
      (∀ k, binarySearchLoop x t fuel i j ≤ k → k < x.length → t ≤ x.getD k 0) := by
  intro fuel
  induction fuel with
  | zero =>
    intro i j hij _ hf hlo hhi
    have : i = j := by omega
    subst this
    simp only [binarySearchLoop]
    exact ⟨le_refl _, le_refl _, hlo, hhi⟩
  | succ fuel ih =>
    intro i j hij hj hf hlo hhi
    simp only [binarySearchLoop]
    by_cases hlt : i < j
    · simp only [hlt, if_true]
      have hh1 : i ≤ (i + j) / 2 := by omega
      have hh2 : (i + j) / 2 < j := by omega
      by_cases hc : x.getD ((i + j) / 2) 0 < t
      · simp only [hc, if_true]
        have := ih ((i + j) / 2 + 1) j (by omega) hj (by omega)
          (fun k hk => lt_of_le_of_lt (getD_le_of_sorted hs (by omega) (by omega)) hc) hhi
        exact ⟨by omega, this.2.1, this.2.2.1, this.2.2.2⟩
      · simp only [hc, if_false]
        have := ih i ((i + j) / 2) hh1 (by omega) (by omega) hlo
          (fun k hk hkl => le_trans (not_lt.mp hc) (getD_le_of_sorted hs hk hkl))
        exact ⟨this.1, by omega, this.2.2.1, this.2.2.2⟩
    · have : i = j := by omega
      subst this
      simp only [lt_irrefl, if_false]
      exact ⟨le_refl _, le_refl _, hlo, hhi⟩

/-- On a strictly increasing slice the position found is the lower bound of
the target. -/
theorem BinarySearch_spec {x : List Nat} (hs : StrictlyIncreasing x) (t : Nat) :
    (BinarySearch x t).1 ≤ x.length ∧
    (∀ k, k < (BinarySearch x t).1 → x.getD k 0 < t) ∧
    (∀ k, (BinarySearch x t).1 ≤ k → k < x.length → t ≤ x.getD k 0) := by
  have := binarySearchLoop_spec hs t x.length 0 x.length (Nat.zero_le _) (le_refl _) (by omega)
    (fun k hk => absurd hk (Nat.not_lt_zero k)) (fun k hk hkl => absurd hkl (by omega))
  exact ⟨this.2.1, this.2.2.1, this.2.2.2⟩

theorem BinarySearch_le_length {x : List Nat} (hs : StrictlyIncreasing x) (t : Nat) :
    (BinarySearch x t).1 ≤ x.length := (BinarySearch_spec hs t).1

theorem BinarySearch_take_lt {x : List Nat} (hs : StrictlyIncreasing x) (t : Nat) :
    ∀ a ∈ x.take (BinarySearch x t).1, a < t := by
  intro a ha
  obtain ⟨k, hk, rfl⟩ := List.mem_take_iff_getElem.mp ha
  have hk1 : k < (BinarySearch x t).1 := lt_of_lt_of_le hk (min_le_left _ _)
  have hk2 : k < x.length := lt_of_lt_of_le hk (min_le_right _ _)
  have := (BinarySearch_spec hs t).2.1 k hk1
  rwa [List.getD_eq_getElem x 0 hk2] at this

theorem BinarySearch_drop_ge {x : List Nat} (hs : StrictlyIncreasing x) (t : Nat) :
    ∀ a ∈ x.drop (BinarySearch x t).1, t ≤ a := by
  intro a ha
  obtain ⟨k, hk, rfl⟩ := List.mem_drop_iff_getElem.mp ha
  have hk2 : (BinarySearch x t).1 + k < x.length := by omega
  have := (BinarySearch_spec hs t).2.2 ((BinarySearch x t).1 + k) (Nat.le_add_right _ _) hk2
  rwa [List.getD_eq_getElem x 0 hk2] at this

/-- On a strictly increasing slice the target is reported found exactly when
it occurs. -/
theorem BinarySearch_found_iff {x : List Nat} (hs : StrictlyIncreasing x) (t : Nat) :
    (BinarySearch x t).2 = true ↔ t ∈ x := by
  constructor
  · intro h
    simp only [BinarySearch, Bool.and_eq_true, decide_eq_true_eq] at h
    obtain ⟨h1, h2⟩ := h
    rw [List.getD_eq_getElem x 0 h1] at h2
    exact h2 ▸ List.getElem_mem _
  · intro h
    obtain ⟨k, hk, rfl⟩ := List.mem_iff_getElem.mp h
    obtain ⟨_, hlo, hhi⟩ := BinarySearch_spec hs x[k]
    have h1 : (BinarySearch x x[k]).1 ≤ k := by
      by_contra hc
      have := hlo k (not_le.mp hc)
      rw [List.getD_eq_getElem x 0 hk] at this
      exact lt_irrefl _ this
    have h2 : (BinarySearch x x[k]).1 < x.length := lt_of_le_of_lt h1 hk
    have h3 : x[k] ≤ x.getD (BinarySearch x x[k]).1 0 := hhi _ (le_refl _) h2
    have h4 : x.getD (BinarySearch x x[k]).1 0 ≤ x.getD k 0 := getD_le_of_sorted hs h1 hk
    rw [List.getD_eq_getElem x 0 hk] at h4
    have h5 : x.getD (BinarySearch x x[k]).1 0 = x[k] := le_antisymm h4 h3
    have : (BinarySearch x x[k]).2 =
        (decide ((BinarySearch x x[k]).1 < x.length) &&
          decide (x.getD (BinarySearch x x[k]).1 0 = x[k])) := rfl
    rw [this, Bool.and_eq_true]
    exact ⟨decide_eq_true h2, decide_eq_true h5⟩

/-! ## Inserting into and deleting from the two parallel slices -/

theorem entries_take (slots : List Nat) (nodes : List GoString) (r : Nat) :
    (entries slots nodes).take r = entries (slots.take r) (nodes.take r) := by
  simp only [entries, List.zip_eq_zipWith, List.take_zipWith]

theorem entries_drop (slots : List Nat) (nodes : List GoString) (r : Nat) :
    (entries slots nodes).drop r = entries (slots.drop r) (nodes.drop r) := by
  simp only [entries, List.zip_eq_zipWith, List.drop_zipWith]

theorem entries_length {slots : List Nat} {nodes : List GoString}
    (hlen : slots.length = nodes.length) : (entries slots nodes).length = slots.length := by
  simp [entries, hlen]

theorem entries_map_fst {slots : List Nat} {nodes : List GoString}
    (hlen : slots.length = nodes.length) : (entries slots nodes).map Prod.fst = slots :=
  List.map_fst_zip slots nodes (le_of_eq hlen)

theorem entries_map_snd {slots : List Nat} {nodes : List GoString}
    (hlen : slots.length = nodes.length) : (entries slots nodes).map Prod.snd = nodes :=
  List.map_snd_zip slots nodes (le_of_eq hlen.symm)

/-- The pairs of the ring after an insertion at position `r` of both slices. -/
theorem entries_insert {slots : List Nat} {nodes : List GoString}
    (hlen : slots.length = nodes.length) (r h : Nat) (n : GoString) :
    entries (slots.take r ++ h :: slots.drop r) (nodes.take r ++ n :: nodes.drop r) =
      (entries slots nodes).take r ++ (h, n) :: (entries slots nodes).drop r := by
  rw [entries_take, entries_drop]
  unfold entries
  rw [List.zip_append (by simp [hlen]), List.zip_cons_cons]

/-- The pairs of the ring after the deletion of position `r` of both slices. -/
theorem entries_delete {slots : List Nat} {nodes : List GoString}
    (hlen : slots.length = nodes.length) (r : Nat) :
    entries (slots.take r ++ slots.drop (r + 1)) (nodes.take r ++ nodes.drop (r + 1)) =
      (entries slots nodes).take r ++ (entries slots nodes).drop (r + 1) := by
  rw [entries_take, entries_drop]
  unfold entries
  rw [List.zip_append (by simp [hlen])]

theorem sublist_insert {α : Type} (l : List α) (r : Nat) (a : α) :
    l.Sublist (l.take r ++ a :: l.drop r) := by
  have h : (l.take r ++ l.drop r).Sublist (l.take r ++ a :: l.drop r) :=
    List.Sublist.append (List.Sublist.refl _) (List.sublist_cons_self a _)
  rwa [List.take_append_drop] at h

theorem delete_sublist {α : Type} (l : List α) (r : Nat) :
    (l.take r ++ l.drop (r + 1)).Sublist l := by
  have h : (l.take r ++ l.drop (r + 1)).Sublist (l.take r ++ l.drop r) :=
    List.Sublist.append (List.Sublist.refl _) (by
      rw [← List.drop_drop 1 r l]
      exact List.drop_sublist 1 _)
  rwa [List.take_append_drop] at h

/-- Inserting a fresh target at the position binary search reports keeps the
slice strictly increasing. -/
theorem insert_sorted {x : List Nat} (hs : StrictlyIncreasing x) {t : Nat} (ht : t ∉ x) :
    StrictlyIncreasing (x.take (BinarySearch x t).1 ++ t :: x.drop (BinarySearch x t).1) := by
  unfold StrictlyIncreasing
  rw [List.pairwise_append]
  have hdrop : ∀ a ∈ x.drop (BinarySearch x t).1, t < a := by
    intro a ha
    have h1 := BinarySearch_drop_ge hs t a ha
    have h2 : a ≠ t := fun h => ht (h ▸ List.mem_of_mem_drop ha)
    omega
  refine ⟨List.Pairwise.sublist (List.take_sublist _ _) hs, ?_, ?_⟩
  · rw [List.pairwise_cons]
    exact ⟨hdrop, List.Pairwise.sublist (List.drop_sublist _ _) hs⟩
  · intro a ha b hb
    have h1 := BinarySearch_take_lt hs t a ha
    rcases List.mem_cons.mp hb with h | h
    · rw [h]; exact h1
    · exact lt_trans h1 (hdrop b h)

theorem delete_sorted {x : List Nat} (hs : StrictlyIncreasing x) (r : Nat) :
    StrictlyIncreasing (x.take r ++ x.drop (r + 1)) :=
  List.Pairwise.sublist (delete_sublist x r) hs

/-- Where a strictly increasing slice holds the target, binary search reports
its index. -/
theorem BinarySearch_index {x : List Nat} (hs : StrictlyIncreasing x) {t k : Nat}
    (hk : k < x.length) (hx : x[k] = t) : (BinarySearch x t).1 = k := by
  obtain ⟨_, hlo, hhi⟩ := BinarySearch_spec hs t
  have h1 : (BinarySearch x t).1 ≤ k := by
    by_contra hc
    have := hlo k (not_le.mp hc)
    rw [List.getD_eq_getElem x 0 hk, hx] at this
    exact lt_irrefl _ this
  by_contra hne
  have h2 : (BinarySearch x t).1 < k := lt_of_le_of_ne h1 hne
  have h3 := hhi _ (le_refl _) (lt_trans h2 hk)
  have h4 := getD_lt_of_sorted hs h2 hk
  rw [List.getD_eq_getElem x 0 hk, hx] at h4
  omega

/-- Two pairs of a well-formed ring with the same slot are the same pair. -/
theorem entries_slot_unique {slots : List Nat} {nodes : List GoString}
    (hs : StrictlyIncreasing slots) {h : Nat} {l1 l2 : GoString}
    (h1 : (h, l1) ∈ entries slots nodes) (h2 : (h, l2) ∈ entries slots nodes) : l1 = l2 := by
  obtain ⟨i, hi, hie⟩ := List.mem_iff_getElem.mp h1
  obtain ⟨j, hj, hje⟩ := List.mem_iff_getElem.mp h2
  simp only [entries, List.getElem_zip, Prod.mk.injEq] at hie hje
  simp only [entries, List.length_zip, lt_min_iff] at hi hj
  have hij : i = j := by
    have e1 := BinarySearch_index hs hi.1 hie.1
    have e2 := BinarySearch_index hs hj.1 hje.1
    omega
  subst hij
  rw [← hie.2, ← hje.2]

/-! ## Integer conversions -/

theorem toInt_of_lt {u : Nat} (h : u < 2 ^ 63) : toInt u = (u : Int) := by
  have h1 : u % 2 ^ 64 = u := Nat.mod_eq_of_lt (by omega)
  simp only [toInt, h1, h, if_true]

theorem toInt_neg_of_ge {u : Nat} (h1 : 2 ^ 63 ≤ u) (h2 : u < 2 ^ 64) : toInt u < 0 := by
  have h3 : u % 2 ^ 64 = u := Nat.mod_eq_of_lt h2
  have h4 : ¬ u < 2 ^ 63 := by omega
  simp only [toInt, h3, h4, if_false]
  omega

theorem ne_zero_of_toInt_pos {u : Nat} (h : 0 < toInt u) : u ≠ 0 := by
  rintro rfl
  simp [toInt] at h

theorem hashItem_ok (item : GoString) {nslots : Nat} (h : nslots ≠ 0) :
    hashItem item nslots = .ok (digestXor item % nslots) := by
  simp [hashItem, h]

theorem hashItem_lt {item : GoString} {nslots h : Nat} (hh : hashItem item nslots = .ok h) :
    h < nslots := by
  unfold hashItem at hh
  split at hh
  · cases hh
  · cases hh
    exact Nat.mod_lt _ (Nat.pos_of_ne_zero ‹_›)

/-! ## The basic ring: `AddNode` -/

theorem AddNode_capacity {ch : ConsistentHasher} (node : GoString)
    (hcap : toInt ch.ringSize ≤ (ch.nodes.length : Int)) :
    ch.AddNode node = .ok (ch, some .ringSizeExceeded) := by
  simp [ConsistentHasher.AddNode, hcap]

theorem AddNode_collision {ch : ConsistentHasher} {node : GoString} {nh : Nat}
    (hcap : (ch.nodes.length : Int) < toInt ch.ringSize)
    (hh : hashItem node ch.ringSize = .ok nh)
    (hs : StrictlyIncreasing ch.slots) (hmem : nh ∈ ch.slots) :
    ch.AddNode node = .ok (ch, some .collision) := by
  have hf := (BinarySearch_found_iff hs nh).mpr hmem
  simp [ConsistentHasher.AddNode, not_le.mpr hcap, hh, hf]

theorem AddNode_insert {ch : ConsistentHasher} {node : GoString} {nh : Nat}
    (hcap : (ch.nodes.length : Int) < toInt ch.ringSize)
    (hh : hashItem node ch.ringSize = .ok nh)
    (hs : StrictlyIncreasing ch.slots) (hlen : ch.slots.length = ch.nodes.length)
    (hmem : nh ∉ ch.slots) :
    ch.AddNode node = .ok
      ({ ch with
          slots := ch.slots.take (BinarySearch ch.slots nh).1 ++
            nh :: ch.slots.drop (BinarySearch ch.slots nh).1,
          nodes := ch.nodes.take (BinarySearch ch.slots nh).1 ++
            node :: ch.nodes.drop (BinarySearch ch.slots nh).1 }, none) := by
  have hf : (BinarySearch ch.slots nh).2 = false := by
    cases hb : (BinarySearch ch.slots nh).2
    · rfl
    · exact absurd ((BinarySearch_found_iff hs nh).mp hb) hmem
  have hle := BinarySearch_le_length hs nh
  have hle2 : (BinarySearch ch.slots nh).1 ≤ ch.nodes.length := hlen ▸ hle
  simp [ConsistentHasher.AddNode, not_le.mpr hcap, hh, hf, Insert, hle, hle2]

/-- The possible outcomes of `AddNode` on a ring with strictly increasing
slots and as many labels as slots. -/
theorem AddNode_outcome {ch : ConsistentHasher} (node : GoString)
    (hs : StrictlyIncreasing ch.slots) (hlen : ch.slots.length = ch.nodes.length) :
    (toInt ch.ringSize ≤ (ch.nodes.length : Int) ∧
      ch.AddNode node = .ok (ch, some .ringSizeExceeded)) ∨
    ((ch.nodes.length : Int) < toInt ch.ringSize ∧ ∃ nh, hashItem node ch.ringSize = .ok nh ∧
      ((nh ∈ ch.slots ∧ ch.AddNode node = .ok (ch, some .collision)) ∨
       (nh ∉ ch.slots ∧ ch.AddNode node = .ok
          ({ ch with
              slots := ch.slots.take (BinarySearch ch.slots nh).1 ++
                nh :: ch.slots.drop (BinarySearch ch.slots nh).1,
              nodes := ch.nodes.take (BinarySearch ch.slots nh).1 ++
                node :: ch.nodes.drop (BinarySearch ch.slots nh).1 }, none)))) := by
  by_cases hcap : toInt ch.ringSize ≤ (ch.nodes.length : Int)
  · exact Or.inl ⟨hcap, AddNode_capacity node hcap⟩
  · have hcap2 := not_le.mp hcap
    have hne : ch.ringSize ≠ 0 :=
      ne_zero_of_toInt_pos (lt_of_le_of_lt (Int.natCast_nonneg _) hcap2)
    refine Or.inr ⟨hcap2, _, hashItem_ok node hne, ?_⟩
    by_cases hmem : digestXor node % ch.ringSize ∈ ch.slots
    · exact Or.inl ⟨hmem, AddNode_collision hcap2 (hashItem_ok node hne) hs hmem⟩
    · exact Or.inr ⟨hmem, AddNode_insert hcap2 (hashItem_ok node hne) hs hlen hmem⟩

/-- An insertion of a slot and its label keeps the ring well formed. -/
theorem WellFormed_insert {slots : List Nat} {nodes : List GoString} {ringSize : Nat}
    (hw : WellFormed slots nodes ringSize) {node : GoString} {nh : Nat}
    (hh : hashItem node ringSize = .ok nh) (hmem : nh ∉ slots) :
    WellFormed (slots.take (BinarySearch slots nh).1 ++ nh :: slots.drop (BinarySearch slots nh).1)
      (nodes.take (BinarySearch slots nh).1 ++ node :: nodes.drop (BinarySearch slots nh).1)
      ringSize := by
  obtain ⟨hs, hlen, hal⟩ := hw
  refine ⟨insert_sorted hs hmem, ?_, ?_⟩
  · have := BinarySearch_le_length hs nh
    simp only [List.length_append, List.length_take, List.length_cons, List.length_drop]
    omega
  · intro p hp
    rw [entries_insert hlen] at hp
    rcases List.mem_append.mp hp with h | h
    · exact hal p (List.mem_of_mem_take h)
    · rcases List.mem_cons.mp h with h | h
      · rw [h]; exact hh
      · exact hal p (List.mem_of_mem_drop h)

/-- A deletion of a slot and its label keeps the ring well formed. -/
theorem WellFormed_delete {slots : List Nat} {nodes : List GoString} {ringSize : Nat}
    (hw : WellFormed slots nodes ringSize) (r : Nat) :
    WellFormed (slots.take r ++ slots.drop (r + 1)) (nodes.take r ++ nodes.drop (r + 1))
      ringSize := by
  obtain ⟨hs, hlen, hal⟩ := hw
  refine ⟨delete_sorted hs r, ?_, ?_⟩
  · simp only [List.length_append, List.length_take, List.length_drop]
    omega
  · intro p hp
    rw [entries_delete hlen] at hp
    exact hal p ((delete_sublist _ r).subset hp)

/-- Every call of `AddNode` keeps the basic ring well formed and its ring
size unchanged. -/
theorem AddNode_wellFormed {ch ch1 : ConsistentHasher} {node : GoString} {e : Option Error}
    (hw : WellFormed ch.slots ch.nodes ch.ringSize) (h : ch.AddNode node = .ok (ch1, e)) :
    WellFormed ch1.slots ch1.nodes ch1.ringSize ∧ ch1.ringSize = ch.ringSize := by
  rcases AddNode_outcome node hw.1 hw.2.1 with ⟨_, h1⟩ | ⟨_, nh, hh, ⟨_, h1⟩ | ⟨hmem, h1⟩⟩
  · rw [h1] at h; cases h; exact ⟨hw, rfl⟩
  · rw [h1] at h; cases h; exact ⟨hw, rfl⟩
  · rw [h1] at h; cases h; exact ⟨WellFormed_insert hw hh hmem, rfl⟩

theorem WellFormed_nil (ringSize : Nat) : WellFormed [] [] ringSize :=
  ⟨List.Pairwise.nil, rfl, fun _ hp => absurd hp (List.not_mem_nil _)⟩

/-- Every sequence of `AddNode` calls keeps the basic ring well formed. -/
theorem run_wellFormed (calls : List GoString) :
    ∀ (ch ch1 : ConsistentHasher) (errs : List (Option Error)),
      WellFormed ch.slots ch.nodes ch.ringSize → ch.run calls = .ok (ch1, errs) →
      WellFormed ch1.slots ch1.nodes ch1.ringSize ∧ ch1.ringSize = ch.ringSize := by
  induction calls with
  | nil =>
    intro ch ch1 errs hw h
    simp only [ConsistentHasher.run, Except.ok.injEq, Prod.mk.injEq] at h
    rw [← h.1]; exact ⟨hw, rfl⟩
  | cons n rest ih =>
    intro ch ch1 errs hw h
    simp only [ConsistentHasher.run] at h
    split at h
    · cases h
    · rename_i ch2 e hstep
      split at h
      · cases h
      · rename_i ch3 es hrest
        simp only [Except.ok.injEq, Prod.mk.injEq] at h
        obtain ⟨hw2, hr2⟩ := AddNode_wellFormed hw hstep
        obtain ⟨hw3, hr3⟩ := ih ch2 ch3 es hw2 hrest
        rw [← h.1]
        exact ⟨hw3, hr3.trans hr2⟩

/-! ## Labels of virtual nodes -/

theorem valRev_digitsRev : ∀ (fuel n : Nat), n < fuel → valRev (digitsRev fuel n) = n := by
  intro fuel
  induction fuel with
  | zero => intro n h; exact absurd h (Nat.not_lt_zero n)
  | succ fuel ih =>
    intro n h
    by_cases h10 : n < 10
    · simp [digitsRev, h10, valRev]
    · have hlt : n / 10 < fuel := by omega
      have hrec := ih (n / 10) hlt
      simp only [digitsRev, h10, if_false, valRev, List.foldr_cons] at hrec ⊢
      rw [hrec]
      omega

theorem itoa_injective {i j : Nat} (h : itoa i = itoa j) : i = j := by
  have h1 : digitsRev (i + 1) i = digitsRev (j + 1) j := List.reverse_injective h
  have h2 := congrArg valRev h1
  rwa [valRev_digitsRev _ _ (Nat.lt_succ_self i), valRev_digitsRev _ _ (Nat.lt_succ_self j)] at h2

/-- Different indices give different labels of the same node. -/
theorem vnode_injective {node : GoString} {i j : Nat} (h : vnode node i = vnode node j) :
    i = j := by
  unfold vnode at h
  have h1 := List.append_cancel_left h
  simp only [List.cons.injEq, true_and] at h1
  exact itoa_injective h1

theorem atSign_mem_vnode (node : GoString) (i : Nat) : atSign ∈ vnode node i := by
  simp [vnode]

/-- A label always has a separator, so `nodeFromVnode` returns on it. -/
theorem nodeFromVnode_of_mem {l : GoString} (h : atSign ∈ l) :
    nodeFromVnode l = .ok (l.take (List.indexOf atSign l)) := by
  have := List.indexOf_lt_length.mpr h
  simp [nodeFromVnode, Cut, this]

/-- For a node name without `'@'`, `nodeFromVnode` recovers the name from each
of its labels. -/
theorem nodeFromVnode_vnode {node : GoString} (h : atSign ∉ node) (i : Nat) :
    nodeFromVnode (vnode node i) = .ok node := by
  rw [nodeFromVnode_of_mem (atSign_mem_vnode node i)]
  have : List.indexOf atSign (vnode node i) = node.length := by
    unfold vnode
    rw [List.indexOf_append_of_not_mem h, List.indexOf_cons_self]
    simp
  rw [this]
  simp [vnode]

/-! ## The virtual-node ring: the loop of `AddNode` -/

theorem addLoop_cons_collision {ch : ConsistentHasherV} {node : GoString} {i nh : Nat}
    (rest : List Nat) (hh : hashItem (vnode node i) ch.ringSize = .ok nh)
    (hs : StrictlyIncreasing ch.slots) (hmem : nh ∈ ch.slots) :
    ch.addLoop node (i :: rest) = .ok (ch, some .collision) := by
  have hf := (BinarySearch_found_iff hs nh).mpr hmem
  simp [ConsistentHasherV.addLoop, hh, hf]

theorem addLoop_cons_insert {ch : ConsistentHasherV} {node : GoString} {i nh : Nat}
    (rest : List Nat) (hh : hashItem (vnode node i) ch.ringSize = .ok nh)
    (hs : StrictlyIncreasing ch.slots) (hlen : ch.slots.length = ch.nodes.length)
    (hmem : nh ∉ ch.slots) :
    ch.addLoop node (i :: rest) =
      ConsistentHasherV.addLoop
        { ch with
          slots := ch.slots.take (BinarySearch ch.slots nh).1 ++
            nh :: ch.slots.drop (BinarySearch ch.slots nh).1,
          nodes := ch.nodes.take (BinarySearch ch.slots nh).1 ++
            vnode node i :: ch.nodes.drop (BinarySearch ch.slots nh).1 } node rest := by
  have hf : (BinarySearch ch.slots nh).2 = false := by
    cases hb : (BinarySearch ch.slots nh).2
    · rfl
    · exact absurd ((BinarySearch_found_iff hs nh).mp hb) hmem
  have hle := BinarySearch_le_length hs nh
  have hle2 : (BinarySearch ch.slots nh).1 ≤ ch.nodes.length := hlen ▸ hle
  simp [ConsistentHasherV.addLoop, hh, hf, Insert, hle, hle2]

theorem addLoop_cons_panic {ch : ConsistentHasherV} {node : GoString} {i : Nat} {p : Panic}
    (rest : List Nat) (hh : hashItem (vnode node i) ch.ringSize = .error p) :
    ch.addLoop node (i :: rest) = .error p := by
  simp [ConsistentHasherV.addLoop, hh]

/-- What the loop of `AddNode` does to a ring with strictly increasing slots
and as many labels as slots, whatever it returns. -/
theorem addLoop_spec (node : GoString) (is : List Nat) :
    ∀ (ch ch1 : ConsistentHasherV) (e : Option Error),
      StrictlyIncreasing ch.slots → ch.slots.length = ch.nodes.length →
      ch.addLoop node is = .ok (ch1, e) →
      StrictlyIncreasing ch1.slots ∧ ch1.slots.length = ch1.nodes.length ∧
      ch1.ringSize = ch.ringSize ∧ ch1.vnodesPerNode = ch.vnodesPerNode ∧
      (entries ch.slots ch.nodes).Sublist (entries ch1.slots ch1.nodes) ∧
      (Aligned ch.slots ch.nodes ch.ringSize → Aligned ch1.slots ch1.nodes ch1.ringSize) ∧
      (∀ l ∈ ch1.nodes, l ∈ ch.nodes ∨ ∃ i ∈ is, l = vnode node i) ∧
      (e = none ∨ e = some .collision) ∧
      (e = none → ch1.nodes.length = ch.nodes.length + is.length ∧
        ∀ i ∈ is, ∃ h, hashItem (vnode node i) ch.ringSize = .ok h ∧
          (h, vnode node i) ∈ entries ch1.slots ch1.nodes) := by
  induction is with
  | nil =>
    intro ch ch1 e hs hlen h
    simp only [ConsistentHasherV.addLoop, Except.ok.injEq, Prod.mk.injEq] at h
    obtain ⟨rfl, rfl⟩ := h
    refine ⟨hs, hlen, rfl, rfl, List.Sublist.refl _, id, fun l hl => Or.inl hl, Or.inl rfl, ?_⟩
    intro _
    exact ⟨rfl, fun i hi => absurd hi (List.not_mem_nil _)⟩
  | cons i rest ih =>
    intro ch ch1 e hs hlen h
    cases hh : hashItem (vnode node i) ch.ringSize with
    | error p => rw [addLoop_cons_panic rest hh] at h; cases h
    | ok nh =>
      by_cases hmem : nh ∈ ch.slots
      · rw [addLoop_cons_collision rest hh hs hmem] at h
        simp only [Except.ok.injEq, Prod.mk.injEq] at h
        obtain ⟨rfl, rfl⟩ := h
        refine ⟨hs, hlen, rfl, rfl, List.Sublist.refl _, id, fun l hl => Or.inl hl,
          Or.inr rfl, ?_⟩
        intro hc; cases hc
      · rw [addLoop_cons_insert rest hh hs hlen hmem] at h
        have hs2 := insert_sorted hs hmem
        have hle := BinarySearch_le_length hs nh
        have hlen2 : (ch.slots.take (BinarySearch ch.slots nh).1 ++
            nh :: ch.slots.drop (BinarySearch ch.slots nh).1).length =
            (ch.nodes.take (BinarySearch ch.slots nh).1 ++
            vnode node i :: ch.nodes.drop (BinarySearch ch.slots nh).1).length := by
          simp only [List.length_append, List.length_take, List.length_cons, List.length_drop]
          omega
        obtain ⟨r1, r2, r3, r4, r5, r6, r7, r8, r9⟩ := ih _ ch1 e hs2 hlen2 h
        simp only at r3 r4 r5 r6 r7 r9
        have hsub : (entries ch.slots ch.nodes).Sublist
            (entries (ch.slots.take (BinarySearch ch.slots nh).1 ++
              nh :: ch.slots.drop (BinarySearch ch.slots nh).1)
            (ch.nodes.take (BinarySearch ch.slots nh).1 ++
              vnode node i :: ch.nodes.drop (BinarySearch ch.slots nh).1)) := by
          rw [entries_insert hlen]
          exact sublist_insert _ _ _
        refine ⟨r1, r2, r3, r4, hsub.trans r5, ?_, ?_, r8, ?_⟩
        · intro hal
          apply r6
          exact (WellFormed_insert ⟨hs, hlen, hal⟩ hh hmem).2.2
        · intro l hl
          rcases r7 l hl with h1 | ⟨k, hk, rfl⟩
          · rcases List.mem_append.mp h1 with h2 | h2
            · exact Or.inl (List.mem_of_mem_take h2)
            · rcases List.mem_cons.mp h2 with h3 | h3
              · exact Or.inr ⟨i, List.mem_cons_self _ _, h3⟩
              · exact Or.inl (List.mem_of_mem_drop h3)
          · exact Or.inr ⟨k, List.mem_cons_of_mem _ hk, rfl⟩
        · intro he
          obtain ⟨q1, q2⟩ := r9 he
          refine ⟨?_, ?_⟩
          · rw [q1]
            simp only [List.length_append, List.length_take, List.length_cons, List.length_drop]
            have : (BinarySearch ch.slots nh).1 ≤ ch.nodes.length := hlen ▸ hle
            omega
          · intro k hk
            rcases List.mem_cons.mp hk with rfl | hk2
            · refine ⟨nh, hh, r5.subset ?_⟩
              rw [entries_insert hlen]
              exact List.mem_append_right _ (List.mem_cons_self _ _)
            · exact q2 k hk2

/-! ## The virtual-node ring: the loop of `RemoveNode` -/

theorem removeLoop_cons_notFound {ch : ConsistentHasherV} {node : GoString} {i nh : Nat}
    (rest : List Nat) (hh : hashItem (vnode node i) ch.ringSize = .ok nh)
    (hs : StrictlyIncreasing ch.slots) (hmem : nh ∉ ch.slots) :
    ch.removeLoop node (i :: rest) = .ok (ch, some .vnodeNotFound) := by
  have hf : (BinarySearch ch.slots nh).2 = false := by
    cases hb : (BinarySearch ch.slots nh).2
    · rfl
    · exact absurd ((BinarySearch_found_iff hs nh).mp hb) hmem
  simp [ConsistentHasherV.removeLoop, hh, hf]

theorem removeLoop_cons_delete {ch : ConsistentHasherV} {node : GoString} {i nh : Nat}
    (rest : List Nat) (hh : hashItem (vnode node i) ch.ringSize = .ok nh)
    (hs : StrictlyIncreasing ch.slots) (hlen : ch.slots.length = ch.nodes.length)
    (hmem : nh ∈ ch.slots) :
    ch.removeLoop node (i :: rest) =
      ConsistentHasherV.removeLoop
        { ch with
          slots := ch.slots.take (BinarySearch ch.slots nh).1 ++
            ch.slots.drop ((BinarySearch ch.slots nh).1 + 1),
          nodes := ch.nodes.take (BinarySearch ch.slots nh).1 ++
            ch.nodes.drop ((BinarySearch ch.slots nh).1 + 1) } node rest := by
  have hf := (BinarySearch_found_iff hs nh).mpr hmem
  have hlt : (BinarySearch ch.slots nh).1 < ch.slots.length := by
    have h2 := hf
    simp only [BinarySearch, Bool.and_eq_true, decide_eq_true_eq] at h2
    exact h2.1
  have hlt1 : (BinarySearch ch.slots nh).1 + 1 ≤ ch.slots.length := hlt
  have hlt2 : (BinarySearch ch.slots nh).1 + 1 ≤ ch.nodes.length := hlen ▸ hlt
  simp [ConsistentHasherV.removeLoop, hh, hf, Delete, hlt1, hlt2]

theorem removeLoop_cons_panic {ch : ConsistentHasherV} {node : GoString} {i : Nat} {p : Panic}
    (rest : List Nat) (hh : hashItem (vnode node i) ch.ringSize = .error p) :
    ch.removeLoop node (i :: rest) = .error p := by
  simp [ConsistentHasherV.removeLoop, hh]

/-- The slot found by binary search, once deleted, is no longer in the slice. -/
theorem not_mem_delete {x : List Nat} (hs : StrictlyIncreasing x) {t : Nat} (ht : t ∈ x) :
    t ∉ x.take (BinarySearch x t).1 ++ x.drop ((BinarySearch x t).1 + 1) := by
  obtain ⟨k, hk, rfl⟩ := List.mem_iff_getElem.mp ht
  have hidx := BinarySearch_index hs hk rfl
  rw [hidx]
  intro hmem
  rcases List.mem_append.mp hmem with h | h
  · obtain ⟨a, ha, hae⟩ := List.mem_take_iff_getElem.mp h
    have ha1 : a < k := lt_of_lt_of_le ha (min_le_left _ _)
    have := (List.pairwise_iff_getElem.mp hs) a k (lt_trans ha1 hk) hk ha1
    omega
  · obtain ⟨a, ha, hae⟩ := List.mem_drop_iff_getElem.mp h
    have := (List.pairwise_iff_getElem.mp hs) k (k + 1 + a) hk (by omega) (by omega)
    omega

/-- What the loop of `RemoveNode` does to a ring with strictly increasing
slots and as many labels as slots, whatever it returns. -/
theorem removeLoop_spec (node : GoString) (is : List Nat) :
    ∀ (ch ch1 : ConsistentHasherV) (e : Option Error),
      StrictlyIncreasing ch.slots → ch.slots.length = ch.nodes.length →
      ch.removeLoop node is = .ok (ch1, e) →
      StrictlyIncreasing ch1.slots ∧ ch1.slots.length = ch1.nodes.length ∧
      ch1.ringSize = ch.ringSize ∧ ch1.vnodesPerNode = ch.vnodesPerNode ∧
      (entries ch1.slots ch1.nodes).Sublist (entries ch.slots ch.nodes) ∧
      ch1.slots.Sublist ch.slots ∧
      (e = none ∨ e = some .vnodeNotFound) ∧
      (e = none → ∀ i ∈ is, ∀ h, hashItem (vnode node i) ch.ringSize = .ok h → h ∉ ch1.slots) := by
  induction is with
  | nil =>
    intro ch ch1 e hs hlen h
    simp only [ConsistentHasherV.removeLoop, Except.ok.injEq, Prod.mk.injEq] at h
    obtain ⟨rfl, rfl⟩ := h
    exact ⟨hs, hlen, rfl, rfl, List.Sublist.refl _, List.Sublist.refl _, Or.inl rfl,
      fun _ i hi => absurd hi (List.not_mem_nil _)⟩
  | cons i rest ih =>
    intro ch ch1 e hs hlen h
    cases hh : hashItem (vnode node i) ch.ringSize with
    | error p => rw [removeLoop_cons_panic rest hh] at h; cases h
    | ok nh =>
      by_cases hmem : nh ∈ ch.slots
      · rw [removeLoop_cons_delete rest hh hs hlen hmem] at h
        have hs2 := delete_sorted hs (BinarySearch ch.slots nh).1
        have hlen2 : (ch.slots.take (BinarySearch ch.slots nh).1 ++
            ch.slots.drop ((BinarySearch ch.slots nh).1 + 1)).length =
            (ch.nodes.take (BinarySearch ch.slots nh).1 ++
            ch.nodes.drop ((BinarySearch ch.slots nh).1 + 1)).length := by
          simp only [List.length_append, List.length_take, List.length_drop]
          omega
        obtain ⟨r1, r2, r3, r4, r5, r6, r7, r8⟩ := ih _ ch1 e hs2 hlen2 h
        simp only at r3 r4 r5 r6 r8
        have hsub : (entries (ch.slots.take (BinarySearch ch.slots nh).1 ++
              ch.slots.drop ((BinarySearch ch.slots nh).1 + 1))
            (ch.nodes.take (BinarySearch ch.slots nh).1 ++
              ch.nodes.drop ((BinarySearch ch.slots nh).1 + 1))).Sublist
            (entries ch.slots ch.nodes) := by
          rw [entries_delete hlen]
          exact delete_sublist _ _
        refine ⟨r1, r2, r3, r4, r5.trans hsub, r6.trans (delete_sublist _ _), r7, ?_⟩
        intro he k hk h0 hk0
        rcases List.mem_cons.mp hk with rfl | hk2
        · rw [hh] at hk0
          cases hk0
          exact fun hc => not_mem_delete hs hmem (r6.subset hc)
        · exact r8 he k hk2 h0 hk0
      · rw [removeLoop_cons_notFound rest hh hs hmem] at h
        simp only [Except.ok.injEq, Prod.mk.injEq] at h
        obtain ⟨rfl, rfl⟩ := h
        refine ⟨hs, hlen, rfl, rfl, List.Sublist.refl _, List.Sublist.refl _, Or.inr rfl, ?_⟩
        intro hc; cases hc

/-! ## The virtual-node ring: calls and sequences of calls -/

/-- The method `AddNode` either fails the capacity check and changes nothing
or runs its loop. -/
theorem AddNodeV_cases {ch ch1 : ConsistentHasherV} {node : GoString} {e : Option Error}
    (h : ch.AddNode node = .ok (ch1, e)) :
    (ch1 = ch ∧ e = some .ringSizeExceeded) ∨
      ch.addLoop node (List.range ch.vnodesPerNode.toNat) = .ok (ch1, e) := by
  unfold ConsistentHasherV.AddNode at h
  split at h
  · simp only [Except.ok.injEq, Prod.mk.injEq] at h
    exact Or.inl ⟨h.1.symm, h.2.symm⟩
  · exact Or.inr h

/-- What one call does to a ring with strictly increasing slots and as many
labels as slots, whatever it returns. -/
theorem stepV_spec {ch ch1 : ConsistentHasherV} {c : Call} {e : Option Error}
    (hs : StrictlyIncreasing ch.slots) (hlen : ch.slots.length = ch.nodes.length)
    (h : ch.step c = .ok (ch1, e)) :
    StrictlyIncreasing ch1.slots ∧ ch1.slots.length = ch1.nodes.length ∧
    ch1.ringSize = ch.ringSize ∧ ch1.vnodesPerNode = ch.vnodesPerNode ∧
    (Aligned ch.slots ch.nodes ch.ringSize → Aligned ch1.slots ch1.nodes ch1.ringSize) ∧
    (∀ l ∈ ch1.nodes, l ∈ ch.nodes ∨
      ∃ n i, l = vnode n i ∧ c = .add n ∧ (e = none ∨ e = some .collision)) := by
  cases c with
  | add n =>
    rcases AddNodeV_cases h with ⟨rfl, _⟩ | h1
    · exact ⟨hs, hlen, rfl, rfl, id, fun l hl => Or.inl hl⟩
    · obtain ⟨r1, r2, r3, r4, _, r6, r7, r8, _⟩ := addLoop_spec n _ ch ch1 e hs hlen h1
      refine ⟨r1, r2, r3, r4, r6, ?_⟩
      intro l hl
      rcases r7 l hl with h2 | ⟨i, _, h2⟩
      · exact Or.inl h2
      · exact Or.inr ⟨n, i, h2, rfl, r8⟩
  | remove n =>
    obtain ⟨r1, r2, r3, r4, r5, _, _, _⟩ := removeLoop_spec n _ ch ch1 e hs hlen h
    refine ⟨r1, r2, r3, r4, ?_, ?_⟩
    · intro hal p hp
      rw [r3]
      exact hal p (r5.subset hp)
    · intro l hl
      left
      rw [← entries_map_snd r2] at hl
      rw [← entries_map_snd hlen]
      exact (List.Sublist.map Prod.snd r5).subset hl

/-- What a sequence of calls does to a ring with strictly increasing slots
and as many labels as slots: the invariants stay, and every label of the
final ring was there at the start or is a label of the argument of an
`AddNode` call of the sequence that got past the capacity check. -/
theorem runV_spec (calls : List Call) :
    ∀ (ch ch1 : ConsistentHasherV) (errs : List (Option Error)),
      StrictlyIncreasing ch.slots → ch.slots.length = ch.nodes.length →
      ch.run calls = .ok (ch1, errs) →
      StrictlyIncreasing ch1.slots ∧ ch1.slots.length = ch1.nodes.length ∧
      ch1.ringSize = ch.ringSize ∧ ch1.vnodesPerNode = ch.vnodesPerNode ∧
      (Aligned ch.slots ch.nodes ch.ringSize → Aligned ch1.slots ch1.nodes ch1.ringSize) ∧
      (∀ l ∈ ch1.nodes, l ∈ ch.nodes ∨
        ∃ n i e, l = vnode n i ∧ (Call.add n, e) ∈ calls.zip errs ∧
          (e = none ∨ e = some .collision)) := by
  induction calls with
  | nil =>
    intro ch ch1 errs hs hlen h
    simp only [ConsistentHasherV.run, Except.ok.injEq, Prod.mk.injEq] at h
    obtain ⟨rfl, _⟩ := h
    exact ⟨hs, hlen, rfl, rfl, id, fun l hl => Or.inl hl⟩
  | cons c rest ih =>
    intro ch ch1 errs hs hlen h
    simp only [ConsistentHasherV.run] at h
    split at h
    · cases h
    · rename_i ch2 e hstep
      split at h
      · cases h
      · rename_i ch3 es hrest
        simp only [Except.ok.injEq, Prod.mk.injEq] at h
        obtain ⟨rfl, rfl⟩ := h
        obtain ⟨s1, s2, s3, s4, s5, s6⟩ := stepV_spec hs hlen hstep
        obtain ⟨r1, r2, r3, r4, r5, r6⟩ := ih ch2 ch3 es s1 s2 hrest
        refine ⟨r1, r2, r3.trans s3, r4.trans s4, fun hal => r5 (s5 hal), ?_⟩
        intro l hl
        rcases r6 l hl with h1 | ⟨n, i, e1, h1, h2, h3⟩
        · rcases s6 l h1 with h4 | ⟨n, i, h4, h5, h6⟩
          · exact Or.inl h4
          · refine Or.inr ⟨n, i, e, h4, ?_, h6⟩
            rw [h5]
            exact List.mem_cons_self _ _
        · exact Or.inr ⟨n, i, e1, h1, List.mem_cons_of_mem _ h2, h3⟩

/-- Every ring reached from a new virtual-node ring is well formed, keeps its
parameters, and holds only labels of arguments of earlier `AddNode` calls. -/
theorem runV_new {ringSize : Nat} {v : Int} {calls : List Call} {ch : ConsistentHasherV}
    {errs : List (Option Error)}
    (h : (NewConsistentHasherVWithVNodes ringSize v).run calls = .ok (ch, errs)) :
    WellFormed ch.slots ch.nodes ch.ringSize ∧ ch.ringSize = ringSize ∧ ch.vnodesPerNode = v ∧
    (∀ l ∈ ch.nodes, ∃ n i e, l = vnode n i ∧ (Call.add n, e) ∈ calls.zip errs ∧
      (e = none ∨ e = some .collision)) := by
  obtain ⟨r1, r2, r3, r4, r5, r6⟩ := runV_spec calls _ ch errs
    (show StrictlyIncreasing (NewConsistentHasherVWithVNodes ringSize v).slots from List.Pairwise.nil)
    rfl h
  refine ⟨⟨r1, r2, r5 (WellFormed_nil ringSize).2.2⟩, r3, r4, ?_⟩
  intro l hl
  rcases r6 l hl with h1 | h1
  · exact absurd h1 (List.not_mem_nil _)
  · exact h1

/-- Every ring reached from a new basic ring is well formed and keeps its ring
size. -/
theorem run_new {ringSize : Nat} {calls : List GoString} {ch : ConsistentHasher}
    {errs : List (Option Error)}
    (h : (NewConsistentHasher ringSize).run calls = .ok (ch, errs)) :
    WellFormed ch.slots ch.nodes ch.ringSize ∧ ch.ringSize = ringSize :=
  run_wellFormed calls _ ch errs (WellFormed_nil ringSize) h

/-! ## Lookup -/

theorem lookupIndex_lt {slots : List Nat} (hs : StrictlyIncreasing slots) (h : Nat)
    (hpos : 0 < slots.length) : lookupIndex slots h < slots.length := by
  unfold lookupIndex
  have := BinarySearch_le_length hs h
  split <;> omega

theorem FindNodeFor_eq {ch : ConsistentHasher} {item : GoString} {ih : Nat}
    (hh : hashItem item ch.ringSize = .ok ih) (hs : StrictlyIncreasing ch.slots)
    (hlen : ch.slots.length = ch.nodes.length) (hpos : 0 < ch.nodes.length) :
    ∃ hidx : lookupIndex ch.slots ih < ch.nodes.length,
      ch.FindNodeFor item = .ok ch.nodes[lookupIndex ch.slots ih] := by
  have hidx : lookupIndex ch.slots ih < ch.nodes.length :=
    hlen ▸ lookupIndex_lt hs ih (hlen ▸ hpos)
  refine ⟨hidx, ?_⟩
  have hne : ch.nodes.length ≠ 0 := by omega
  have hget : ch.nodes[lookupIndex ch.slots ih]? = some ch.nodes[lookupIndex ch.slots ih] :=
    List.getElem?_eq_getElem hidx
  unfold lookupIndex at hget
  simp only [ConsistentHasher.FindNodeFor, hne, if_false, hh, hget]
  rfl

theorem FindNodeForV_eq {ch : ConsistentHasherV} {item : GoString} {ih : Nat}
    (hh : hashItem item ch.ringSize = .ok ih) (hs : StrictlyIncreasing ch.slots)
    (hlen : ch.slots.length = ch.nodes.length) (hpos : 0 < ch.nodes.length) :
    ∃ hidx : lookupIndex ch.slots ih < ch.nodes.length,
      ch.FindNodeFor item = nodeFromVnode ch.nodes[lookupIndex ch.slots ih] := by
  have hidx : lookupIndex ch.slots ih < ch.nodes.length :=
    hlen ▸ lookupIndex_lt hs ih (hlen ▸ hpos)
  refine ⟨hidx, ?_⟩
  have hne : ch.nodes.length ≠ 0 := by omega
  have hget : ch.nodes[lookupIndex ch.slots ih]? = some ch.nodes[lookupIndex ch.slots ih] :=
    List.getElem?_eq_getElem hidx
  unfold lookupIndex at hget
  simp only [ConsistentHasherV.FindNodeFor, hne, if_false, hh, hget]
  rfl

theorem lookupIndex_rule {slots : List Nat} (hs : StrictlyIncreasing slots) (h : Nat) :
    LookupRule slots h (lookupIndex slots h) := by
  obtain ⟨hle, hlo, hhi⟩ := BinarySearch_spec hs h
  unfold lookupIndex
  by_cases hend : (BinarySearch slots h).1 = slots.length
  · simp only [hend, if_true]
    refine ⟨?_, fun _ => rfl⟩
    rintro ⟨s, hsm, hge⟩
    obtain ⟨k, hk, rfl⟩ := List.mem_iff_getElem.mp hsm
    have := hlo k (hend ▸ hk)
    rw [List.getD_eq_getElem slots 0 hk] at this
    omega
  · simp only [hend, if_false]
    have hlt : (BinarySearch slots h).1 < slots.length := lt_of_le_of_ne hle hend
    have hge := hhi _ (le_refl _) hlt
    rw [List.getD_eq_getElem slots 0 hlt] at hge
    refine ⟨fun _ => ⟨hlt, hge, ?_⟩, ?_⟩
    · intro s hsm hs2
      obtain ⟨k, hk, rfl⟩ := List.mem_iff_getElem.mp hsm
      have hk2 : (BinarySearch slots h).1 ≤ k := by
        by_contra hc
        have := hlo k (not_le.mp hc)
        rw [List.getD_eq_getElem slots 0 hk] at this
        omega
      have := getD_le_of_sorted hs hk2 hk
      rwa [List.getD_eq_getElem slots 0 hk, List.getD_eq_getElem slots 0 hlt] at this
    · intro hall
      have := hall _ (List.getElem_mem hlt)
      omega

/-! ## The sorted invariant -/

theorem nodup_of_strictlyIncreasing {slots : List Nat} (hs : StrictlyIncreasing slots) :
    slots.Nodup :=
  List.Pairwise.imp (fun h => Nat.ne_of_lt h) hs

/-- C1. Sorted invariant, both ring variants, `ringSize > 0`: in every ring
reached from a new ring by `AddNode` calls (and, for the virtual-node ring,
`RemoveNode` calls) that all returned no error, the slots are strictly
increasing, hence without duplicates, and there are as many slots as labels.
`NewConsistentHasherV ringSize` is the case `vnodesPerNode = 10` of the second
part. -/
theorem sorted_invariant :
    (∀ (ringSize : Nat) (calls : List GoString) (ch : ConsistentHasher)
        (errs : List (Option Error)),
      0 < ringSize → (NewConsistentHasher ringSize).run calls = .ok (ch, errs) →
      (∀ e ∈ errs, e = none) →
      StrictlyIncreasing ch.slots ∧ ch.slots.Nodup ∧ ch.slots.length = ch.nodes.length) ∧
    (∀ (ringSize : Nat) (vnodesPerNode : Int) (calls : List Call) (ch : ConsistentHasherV)
        (errs : List (Option Error)),
      0 < ringSize →
      (NewConsistentHasherVWithVNodes ringSize vnodesPerNode).run calls = .ok (ch, errs) →
      (∀ e ∈ errs, e = none) →
      StrictlyIncreasing ch.slots ∧ ch.slots.Nodup ∧ ch.slots.length = ch.nodes.length) := by
  constructor
  · intro ringSize calls ch errs _ h _
    obtain ⟨⟨hs, hlen, _⟩, _⟩ := run_new h
    exact ⟨hs, nodup_of_strictlyIncreasing hs, hlen⟩
  · intro ringSize v calls ch errs _ h _
    obtain ⟨⟨hs, hlen, _⟩, _⟩ := runV_new h
    exact ⟨hs, nodup_of_strictlyIncreasing hs, hlen⟩

/-- The basic ring of size 16 after `AddNode` of `"S0"`, `"S1"`, `"S2"`, and
the virtual-node ring of size 32 with 2 labels per node after `AddNode("S0")`,
`AddNode("S1")`, `RemoveNode("S0")`: all calls succeed and the slots are
strictly increasing. -/
theorem sorted_invariant_witness :
    ((NewConsistentHasher 16).run [[83, 48], [83, 49], [83, 50]] =
        .ok ({ nodes := [[83, 50], [83, 49], [83, 48]], slots := [1, 5, 14], ringSize := 16 },
          [none, none, none]) ∧
      StrictlyIncreasing [1, 5, 14] ∧ [1, 5, 14].Nodup ∧ [1, 5, 14].length = 3) ∧
    ((NewConsistentHasherVWithVNodes 32 2).run
        [.add [83, 48], .add [83, 49], .remove [83, 48]] =
        .ok ({ nodes := [[83, 49, 64, 48], [83, 49, 64, 49]], slots := [20, 29],
               ringSize := 32, vnodesPerNode := 2 }, [none, none, none]) ∧
      StrictlyIncreasing [20, 29] ∧ [20, 29].Nodup ∧ [20, 29].length = 2) := by
  have h1 : (NewConsistentHasher 16).run [[83, 48], [83, 49], [83, 50]] =
      .ok ({ nodes := [[83, 50], [83, 49], [83, 48]], slots := [1, 5, 14], ringSize := 16 },
        [none, none, none]) := by decide
  have h2 : (NewConsistentHasherVWithVNodes 32 2).run
      [.add [83, 48], .add [83, 49], .remove [83, 48]] =
      .ok ({ nodes := [[83, 49, 64, 48], [83, 49, 64, 49]], slots := [20, 29],
             ringSize := 32, vnodesPerNode := 2 }, [none, none, none]) := by decide
  exact ⟨⟨h1, sorted_invariant.1 16 _ _ _ (by decide) h1 (by decide)⟩,
    ⟨h2, sorted_invariant.2 32 2 _ _ _ (by decide) h2 (by decide)⟩⟩

/-! ## Lookup -/

/-- C2. Lookup rule with wraparound: on a basic ring with strictly increasing
slots, as many labels as slots, at least one label and `ringSize > 0`, for
every key with hash `h`, `FindNodeFor` returns the label at the index `idx`
given by the rule: the index of the smallest slot `≥ h` if some slot is `≥ h`,
and 0 if `h` is greater than every slot. On such a virtual-node ring
`FindNodeFor` is `nodeFromVnode` applied to the label at that index. -/
theorem lookup_rule :
    (∀ (ch : ConsistentHasher) (key : GoString),
      StrictlyIncreasing ch.slots → ch.slots.length = ch.nodes.length →
      0 < ch.nodes.length → 0 < ch.ringSize →
      ∃ (h idx : Nat) (hidx : idx < ch.nodes.length),
        hashItem key ch.ringSize = .ok h ∧ LookupRule ch.slots h idx ∧
        ch.FindNodeFor key = .ok ch.nodes[idx]) ∧
    (∀ (ch : ConsistentHasherV) (key : GoString),
      StrictlyIncreasing ch.slots → ch.slots.length = ch.nodes.length →
      0 < ch.nodes.length → 0 < ch.ringSize →
      ∃ (h idx : Nat) (hidx : idx < ch.nodes.length),
        hashItem key ch.ringSize = .ok h ∧ LookupRule ch.slots h idx ∧
        ch.FindNodeFor key = nodeFromVnode ch.nodes[idx]) := by
  constructor
  · intro ch key hs hlen hpos hr
    have hh := hashItem_ok key (Nat.pos_iff_ne_zero.mp hr)
    obtain ⟨hidx, hfind⟩ := FindNodeFor_eq hh hs hlen hpos
    exact ⟨_, _, hidx, hh, lookupIndex_rule hs _, hfind⟩
  · intro ch key hs hlen hpos hr
    have hh := hashItem_ok key (Nat.pos_iff_ne_zero.mp hr)
    obtain ⟨hidx, hfind⟩ := FindNodeForV_eq hh hs hlen hpos
    exact ⟨_, _, hidx, hh, lookupIndex_rule hs _, hfind⟩

/-- On the basic ring with slots 1, 5, 14 of 16 the key `"a"` (hash 9) goes to
the label of slot 14 and the key `"v"` (hash 15) wraps to index 0; on the
virtual-node ring with slots 20, 29 of 32 the key `"v"` (hash 31) wraps too. -/
theorem lookup_rule_witness :
    (hashItem [118] 16 = .ok 15 ∧
      ConsistentHasher.FindNodeFor
        { nodes := [[83, 50], [83, 49], [83, 48]], slots := [1, 5, 14], ringSize := 16 } [118]
        = .ok [83, 50] ∧
      ConsistentHasher.FindNodeFor
        { nodes := [[83, 50], [83, 49], [83, 48]], slots := [1, 5, 14], ringSize := 16 } [97]
        = .ok [83, 48]) ∧
    (∃ (h idx : Nat) (hidx : idx < 3),
      hashItem [118] 16 = .ok h ∧ LookupRule [1, 5, 14] h idx ∧
      ConsistentHasher.FindNodeFor
        { nodes := [[83, 50], [83, 49], [83, 48]], slots := [1, 5, 14], ringSize := 16 } [118]
        = .ok [[83, 50], [83, 49], [83, 48]][idx]) ∧
    (∃ (h idx : Nat) (hidx : idx < 2),
      hashItem [118] 32 = .ok h ∧ LookupRule [20, 29] h idx ∧
      ConsistentHasherV.FindNodeFor
        { nodes := [[83, 49, 64, 48], [83, 49, 64, 49]], slots := [20, 29],
          ringSize := 32, vnodesPerNode := 2 } [118]
        = nodeFromVnode [[83, 49, 64, 48], [83, 49, 64, 49]][idx]) := by
  refine ⟨by decide, ?_, ?_⟩
  · exact lookup_rule.1 ⟨[[83, 50], [83, 49], [83, 48]], [1, 5, 14], 16⟩ [118]
      (by decide) (by decide) (by decide) (by decide)
  · exact lookup_rule.2 ⟨[[83, 49, 64, 48], [83, 49, 64, 49]], [20, 29], 32, 2⟩ [118]
      (by decide) (by decide) (by decide) (by decide)

/-- C3. Lookup totality: on every non-empty ring reached from a new ring
(`ringSize > 0`) by `AddNode`/`RemoveNode` calls, whatever they returned, and
for every key, `FindNodeFor` returns without a panic: the basic ring returns a
label that is in `nodes`, the virtual-node ring returns `nodeFromVnode l` for a
label `l` that is in `nodes`. -/
theorem lookup_total :
    (∀ (ringSize : Nat) (calls : List GoString) (ch : ConsistentHasher)
        (errs : List (Option Error)) (key : GoString),
      0 < ringSize → (NewConsistentHasher ringSize).run calls = .ok (ch, errs) →
      ch.nodes ≠ [] →
      ∃ l ∈ ch.nodes, ch.FindNodeFor key = .ok l) ∧
    (∀ (ringSize : Nat) (vnodesPerNode : Int) (calls : List Call) (ch : ConsistentHasherV)
        (errs : List (Option Error)) (key : GoString),
      0 < ringSize →
      (NewConsistentHasherVWithVNodes ringSize vnodesPerNode).run calls = .ok (ch, errs) →
      ch.nodes ≠ [] →
      ∃ l ∈ ch.nodes, ∃ r, nodeFromVnode l = .ok r ∧ ch.FindNodeFor key = .ok r) := by
  constructor
  · intro ringSize calls ch errs key hr h hne
    obtain ⟨⟨hs, hlen, _⟩, hrs⟩ := run_new h
    have hpos : 0 < ch.nodes.length := List.length_pos.mpr hne
    have hh := hashItem_ok key (show ch.ringSize ≠ 0 by omega)
    obtain ⟨hidx, hfind⟩ := FindNodeFor_eq hh hs hlen hpos
    exact ⟨_, List.getElem_mem hidx, hfind⟩
  · intro ringSize v calls ch errs key hr h hne
    obtain ⟨⟨hs, hlen, _⟩, hrs, _, hlab⟩ := runV_new h
    have hpos : 0 < ch.nodes.length := List.length_pos.mpr hne
    have hh := hashItem_ok key (show ch.ringSize ≠ 0 by omega)
    obtain ⟨hidx, hfind⟩ := FindNodeForV_eq hh hs hlen hpos
    refine ⟨_, List.getElem_mem hidx, ?_⟩
    obtain ⟨n, i, _, hl, _⟩ := hlab _ (List.getElem_mem hidx)
    have hat : atSign ∈ ch.nodes[lookupIndex ch.slots (digestXor key % ch.ringSize)] := by
      rw [hl]; exact atSign_mem_vnode n i
    exact ⟨_, nodeFromVnode_of_mem hat, hfind.trans (nodeFromVnode_of_mem hat)⟩

/-- After `AddNode` of `"S0"`, `"S1"`, `"S2"`, `"S0"` (the last one a
collision) on a basic ring of size 16, and after `AddNode("S0")`,
`AddNode("S1")`, `RemoveNode("S0")`, `RemoveNode("zz")` (the last one not
found) on a virtual-node ring of size 32 with 2 labels per node, the key `"v"`
is found. -/
theorem lookup_total_witness :
    ((NewConsistentHasher 16).run [[83, 48], [83, 49], [83, 50], [83, 48]] =
        .ok ({ nodes := [[83, 50], [83, 49], [83, 48]], slots := [1, 5, 14], ringSize := 16 },
          [none, none, none, some .collision]) ∧
      ∃ l ∈ [[83, 50], [83, 49], [83, 48]],
        ConsistentHasher.FindNodeFor
          { nodes := [[83, 50], [83, 49], [83, 48]], slots := [1, 5, 14], ringSize := 16 } [118]
          = .ok l) ∧
    ((NewConsistentHasherVWithVNodes 32 2).run
        [.add [83, 48], .add [83, 49], .remove [83, 48], .remove [122, 122]] =
        .ok ({ nodes := [[83, 49, 64, 48], [83, 49, 64, 49]], slots := [20, 29],
               ringSize := 32, vnodesPerNode := 2 },
          [none, none, none, some .vnodeNotFound]) ∧
      ∃ l ∈ [[83, 49, 64, 48], [83, 49, 64, 49]], ∃ r, nodeFromVnode l = .ok r ∧
        ConsistentHasherV.FindNodeFor
          { nodes := [[83, 49, 64, 48], [83, 49, 64, 49]], slots := [20, 29],
            ringSize := 32, vnodesPerNode := 2 } [118] = .ok r) := by
  have h1 : (NewConsistentHasher 16).run [[83, 48], [83, 49], [83, 50], [83, 48]] =
      .ok ({ nodes := [[83, 50], [83, 49], [83, 48]], slots := [1, 5, 14], ringSize := 16 },
        [none, none, none, some .collision]) := by decide
  have h2 : (NewConsistentHasherVWithVNodes 32 2).run
      [.add [83, 48], .add [83, 49], .remove [83, 48], .remove [122, 122]] =
      .ok ({ nodes := [[83, 49, 64, 48], [83, 49, 64, 49]], slots := [20, 29],
             ringSize := 32, vnodesPerNode := 2 },
        [none, none, none, some .vnodeNotFound]) := by decide
  exact ⟨⟨h1, lookup_total.1 16 _ _ _ [118] (by decide) h1 (by decide)⟩,
    ⟨h2, lookup_total.2 32 2 _ _ _ [118] (by decide) h2 (by decide)⟩⟩

/-! ## `AddNode` on the basic ring -/

/-- The position binary search reports is the only one where the target can
be inserted into a strictly increasing slice so that it stays so. -/
theorem insert_position_unique {x : List Nat} (hs : StrictlyIncreasing x) {t j : Nat}
    (hj : j ≤ x.length) (hins : StrictlyIncreasing (x.take j ++ t :: x.drop j)) :
    j = (BinarySearch x t).1 := by
  obtain ⟨hle, hlo, hhi⟩ := BinarySearch_spec hs t
  unfold StrictlyIncreasing at hins
  rw [List.pairwise_append, List.pairwise_cons] at hins
  obtain ⟨_, ⟨hgt, _⟩, hlt⟩ := hins
  rcases Nat.lt_trichotomy j (BinarySearch x t).1 with h | h | h
  · exfalso
    have hjl : j < x.length := lt_of_lt_of_le h hle
    have h1 := hlo j h
    rw [List.getD_eq_getElem x 0 hjl] at h1
    have h2 := hgt x[j] (List.mem_drop_iff_getElem.mpr ⟨0, by simpa using hjl, by simp⟩)
    omega
  · exact h
  · exfalso
    have hbl : (BinarySearch x t).1 < x.length := lt_of_lt_of_le h hj
    have h1 := hhi _ (le_refl _) hbl
    rw [List.getD_eq_getElem x 0 hbl] at h1
    have h2 := hlt x[(BinarySearch x t).1]
      (List.mem_take_iff_getElem.mpr ⟨_, lt_min h hbl, rfl⟩) t (List.mem_cons_self _ _)
    omega

/-- The success postcondition of `AddNode` on the basic ring, for ring sizes
below `2^63` (those that `int(ringSize)` represents): with strictly increasing
slots, as many labels as slots, fewer than `ringSize` of them and a hash `h`
that is not a slot, `AddNode` returns no error, inserts `h` and the node at
the same index `idx`, the only one that keeps the slots strictly increasing,
and keeps the earlier pairs in their order. -/
theorem AddNode_postcondition (ch : ConsistentHasher) (node : GoString) (h : Nat)
    (hs : StrictlyIncreasing ch.slots) (hlen : ch.slots.length = ch.nodes.length)
    (hcap : ch.nodes.length < ch.ringSize) (hr : ch.ringSize < 2 ^ 63)
    (hh : hashItem node ch.ringSize = .ok h) (hmem : h ∉ ch.slots) :
    ∃ idx ch1, idx ≤ ch.slots.length ∧ ch.AddNode node = .ok (ch1, none) ∧
      ch1.slots = ch.slots.take idx ++ h :: ch.slots.drop idx ∧
      ch1.nodes = ch.nodes.take idx ++ node :: ch.nodes.drop idx ∧
      ch1.ringSize = ch.ringSize ∧
      StrictlyIncreasing ch1.slots ∧
      (∀ j, j ≤ ch.slots.length →
        StrictlyIncreasing (ch.slots.take j ++ h :: ch.slots.drop j) → j = idx) ∧
      (entries ch.slots ch.nodes).Sublist (entries ch1.slots ch1.nodes) := by
  have hcap2 : (ch.nodes.length : Int) < toInt ch.ringSize := by
    rw [toInt_of_lt hr]; exact_mod_cast hcap
  refine ⟨(BinarySearch ch.slots h).1, _, BinarySearch_le_length hs h,
    AddNode_insert hcap2 hh hs hlen hmem, rfl, rfl, rfl, insert_sorted hs hmem,
    fun j hj hins => insert_position_unique hs hj hins, ?_⟩
  simp only
  rw [entries_insert hlen]
  exact sublist_insert _ _ _

/-- C4 (defect of the code). The claim's hypotheses hold for the empty basic
ring of size `2^63` and the node `"a"`: the slots are strictly increasing, there
are as many labels as slots, fewer than `ringSize`, and the hash of `"a"` is not
a slot. Yet `AddNode("a")` returns the capacity error and inserts nothing,
because `int(ringSize)` is negative. -/
theorem addNode_fails_on_large_ring :
    StrictlyIncreasing (NewConsistentHasher (2 ^ 63)).slots ∧
    (NewConsistentHasher (2 ^ 63)).slots.length = (NewConsistentHasher (2 ^ 63)).nodes.length ∧
    (NewConsistentHasher (2 ^ 63)).nodes.length < (NewConsistentHasher (2 ^ 63)).ringSize ∧
    hashItem [97] (2 ^ 63) = .ok 4396336064697372873 ∧
    4396336064697372873 ∉ (NewConsistentHasher (2 ^ 63)).slots ∧
    toInt (2 ^ 63) = -9223372036854775808 ∧
    (NewConsistentHasher (2 ^ 63)).AddNode [97] =
      .ok (NewConsistentHasher (2 ^ 63), some .ringSizeExceeded) := by
  decide

/-- A basic ring reached from a new ring is empty or got its last label past
the capacity check: it holds at most `int(ringSize)` labels. -/
theorem run_capacity (calls : List GoString) :
    ∀ (ch ch1 : ConsistentHasher) (errs : List (Option Error)),
      WellFormed ch.slots ch.nodes ch.ringSize →
      (ch.nodes = [] ∨ (ch.nodes.length : Int) ≤ toInt ch.ringSize) →
      ch.run calls = .ok (ch1, errs) →
      (ch1.nodes = [] ∨ (ch1.nodes.length : Int) ≤ toInt ch1.ringSize) := by
  induction calls with
  | nil =>
    intro ch ch1 errs _ hc h
    simp only [ConsistentHasher.run, Except.ok.injEq, Prod.mk.injEq] at h
    rw [← h.1]; exact hc
  | cons n rest ih =>
    intro ch ch1 errs hw hc h
    simp only [ConsistentHasher.run] at h
    split at h
    · cases h
    · rename_i ch2 e hstep
      split at h
      · cases h
      · rename_i ch3 es hrest
        simp only [Except.ok.injEq, Prod.mk.injEq] at h
        obtain ⟨hw2, _⟩ := AddNode_wellFormed hw hstep
        have hc2 : ch2.nodes = [] ∨ (ch2.nodes.length : Int) ≤ toInt ch2.ringSize := by
          rcases AddNode_outcome n hw.1 hw.2.1 with ⟨_, h1⟩ | ⟨hcap, nh, _, ⟨_, h1⟩ | ⟨_, h1⟩⟩
          · rw [h1] at hstep; cases hstep; exact hc
          · rw [h1] at hstep; cases hstep; exact hc
          · rw [h1] at hstep
            cases hstep
            right
            have hle : (BinarySearch ch.slots nh).1 ≤ ch.nodes.length :=
              hw.2.1 ▸ BinarySearch_le_length hw.1 nh
            simp only [List.length_append, List.length_take, List.length_cons, List.length_drop]
            omega
        rw [← h.1]
        exact ih ch2 ch3 es hw2 hc2 hrest

/-- C10. Collision rejection on the basic ring: on every basic ring reached
from a new ring (`ringSize` a `uint64`) by `AddNode` calls, with fewer than
`ringSize` labels, for every node whose hash is already a slot, `AddNode`
returns the collision error and leaves the slots and the labels as they
were. -/
theorem addNode_collision_rejected (ringSize : Nat) (calls : List GoString)
    (ch : ConsistentHasher) (errs : List (Option Error)) (node : GoString) (h : Nat)
    (hu : ringSize < 2 ^ 64)
    (hrun : (NewConsistentHasher ringSize).run calls = .ok (ch, errs))
    (hcap : ch.nodes.length < ch.ringSize)
    (hh : hashItem node ch.ringSize = .ok h) (hmem : h ∈ ch.slots) :
    ch.AddNode node = .ok (ch, some .collision) := by
  obtain ⟨hw, hrs⟩ := run_new hrun
  have hc := run_capacity calls _ ch errs (WellFormed_nil ringSize) (Or.inl rfl) hrun
  have hpos : 0 < ch.nodes.length := by
    rw [← hw.2.1]
    exact List.length_pos_of_mem hmem
  have hc2 : (ch.nodes.length : Int) ≤ toInt ch.ringSize := by
    rcases hc with h0 | h1
    · rw [h0] at hpos
      exact absurd hpos (Nat.lt_irrefl 0)
    · exact h1
  have hr : ch.ringSize < 2 ^ 63 := by
    rw [hrs] at hc2 ⊢
    by_contra hge
    have := toInt_neg_of_ge (not_lt.mp hge) hu
    omega
  have hcap2 : (ch.nodes.length : Int) < toInt ch.ringSize := by
    rw [toInt_of_lt hr]; exact_mod_cast hcap
  exact AddNode_collision hcap2 hh hw.1 hmem

/-- On the basic ring of size 16, after `AddNode` of `"S0"`, `"S1"`, `"S2"`
the labels stand at the slots 14, 5, 1, and `AddNode("S0")` is a collision that
changes nothing. -/
theorem addNode_collision_rejected_witness :
    (NewConsistentHasher 16).run [[83, 48], [83, 49], [83, 50]] =
      .ok (⟨[[83, 50], [83, 49], [83, 48]], [1, 5, 14], 16⟩, [none, none, none]) ∧
    16 < 2 ^ 64 ∧ 3 < 16 ∧ hashItem [83, 48] 16 = .ok 14 ∧ 14 ∈ [1, 5, 14] ∧
    ConsistentHasher.AddNode ⟨[[83, 50], [83, 49], [83, 48]], [1, 5, 14], 16⟩ [83, 48] =
      .ok (⟨[[83, 50], [83, 49], [83, 48]], [1, 5, 14], 16⟩, some .collision) := by
  have h : (NewConsistentHasher 16).run [[83, 48], [83, 49], [83, 50]] =
      .ok (⟨[[83, 50], [83, 49], [83, 48]], [1, 5, 14], 16⟩, [none, none, none]) := by decide
  exact ⟨h, by decide, by decide, by decide, by decide,
    addNode_collision_rejected 16 _ _ _ [83, 48] 14 (by decide) h (by decide) (by decide)
      (by decide)⟩

/-! ## Labels of a well-formed ring -/

theorem getElem_mem_entries {slots : List Nat} {nodes : List GoString} {k : Nat}
    (hk : k < slots.length) (hk2 : k < nodes.length) :
    (slots[k], nodes[k]) ∈ entries slots nodes := by
  have hz : k < (List.zip slots nodes).length := by
    rw [List.length_zip]; exact lt_min hk hk2
  have : (List.zip slots nodes)[k] = (slots[k], nodes[k]) := List.getElem_zip
  exact this ▸ List.getElem_mem hz

/-- A pair of the ring sits at some index of both slices. -/
theorem index_of_mem_entries {slots : List Nat} {nodes : List GoString} {p : Nat × GoString}
    (hp : p ∈ entries slots nodes) :
    ∃ k : Nat, slots[k]? = some p.1 ∧ nodes[k]? = some p.2 := by
  obtain ⟨k, hk, hke⟩ := List.mem_iff_getElem.mp hp
  simp only [entries, List.length_zip, lt_min_iff] at hk
  simp only [entries, List.getElem_zip] at hke
  refine ⟨k, ?_, ?_⟩
  · rw [List.getElem?_eq_getElem hk.1, ← hke]
  · rw [List.getElem?_eq_getElem hk.2, ← hke]

/-- The labels of a well-formed ring are pairwise different. -/
theorem nodes_nodup {slots : List Nat} {nodes : List GoString} {ringSize : Nat}
    (hw : WellFormed slots nodes ringSize) : nodes.Nodup := by
  obtain ⟨hs, hlen, hal⟩ := hw
  unfold List.Nodup
  rw [List.pairwise_iff_getElem]
  intro a b ha hb hab heq
  have h1 := hal _ (getElem_mem_entries (hlen ▸ ha) ha)
  have h2 := hal _ (getElem_mem_entries (hlen ▸ hb) hb)
  simp only at h1 h2
  rw [heq, h2] at h1
  simp only [Except.ok.injEq] at h1
  have := (List.pairwise_iff_getElem.mp hs) a b (hlen ▸ ha) (hlen ▸ hb) hab
  omega

/-- A non-empty well-formed ring has a non-zero ring size. -/
theorem ringSize_ne_zero {slots : List Nat} {nodes : List GoString} {ringSize : Nat}
    (hw : WellFormed slots nodes ringSize) (hpos : 0 < nodes.length) : ringSize ≠ 0 := by
  obtain ⟨_, hlen, hal⟩ := hw
  have h1 := hal _ (getElem_mem_entries (hlen ▸ hpos) hpos)
  intro h0
  rw [h0] at h1
  simp [hashItem] at h1

/-- In a list whose images under `f` are pairwise different, keeping the
elements with another image than the one at index `k` deletes that index. -/
theorem filter_ne_getElem {α β : Type} [DecidableEq β] (f : α → β) :
    ∀ (l : List α) (k : Nat) (hk : k < l.length), (l.map f).Nodup →
      l.filter (fun p => decide (f p ≠ f l[k])) = l.take k ++ l.drop (k + 1) := by
  intro l
  induction l with
  | nil => intro k hk; exact absurd hk (Nat.not_lt_zero k)
  | cons a l ih =>
    intro k hk hnd
    rw [List.map_cons, List.nodup_cons] at hnd
    cases k with
    | zero =>
      have hall : ∀ p ∈ l, decide (f p ≠ f a) = true := by
        intro p hp
        exact decide_eq_true (fun h => hnd.1 (h ▸ List.mem_map_of_mem f hp))
      simp only [List.getElem_cons_zero, List.take_zero, List.nil_append, zero_add,
        List.drop_succ_cons, List.drop_zero]
      rw [List.filter_cons_of_neg (by simp)]
      exact List.filter_eq_self.mpr hall
    | succ k =>
      have hk2 : k < l.length := Nat.lt_of_succ_lt_succ hk
      have hne : f a ≠ f l[k] := fun h => hnd.1 (h ▸ List.mem_map_of_mem f (List.getElem_mem hk2))
      simp only [List.getElem_cons_succ, List.take_succ_cons, List.cons_append,
        List.drop_succ_cons]
      rw [List.filter_cons_of_pos (by simpa using hne), ih k hk2 hnd.2]

theorem mem_delete_of_ne {α : Type} {l : List α} {a : α} {k : Nat} (hk : k < l.length)
    (ha : a ∈ l) (hne : a ≠ l[k]) : a ∈ l.take k ++ l.drop (k + 1) := by
  obtain ⟨j, hj, rfl⟩ := List.mem_iff_getElem.mp ha
  have hjk : j ≠ k := fun h => hne (by subst h; rfl)
  rcases Nat.lt_or_gt_of_ne hjk with h | h
  · exact List.mem_append_left _ (List.mem_take_iff_getElem.mpr ⟨j, lt_min h hj, rfl⟩)
  · refine List.mem_append_right _ (List.mem_drop_iff_getElem.mpr ⟨j - (k + 1), by omega, ?_⟩)
    congr 1
    omega

/-! ## The virtual-node ring: a removal that finds every label -/

/-- When every label the loop of `RemoveNode` looks for is in a well-formed
ring, the loop returns no error and the ring it leaves is the old one without
the pairs of those labels. -/
theorem removeLoop_success (node : GoString) (is : List Nat) :
    ∀ (ch : ConsistentHasherV), WellFormed ch.slots ch.nodes ch.ringSize → is.Nodup →
      (∀ i ∈ is, vnode node i ∈ ch.nodes) →
      ∃ ch1, ch.removeLoop node is = .ok (ch1, none) ∧
        entries ch1.slots ch1.nodes =
          (entries ch.slots ch.nodes).filter (fun p => decide (p.2 ∉ is.map (vnode node))) := by
  induction is with
  | nil =>
    intro ch _ _ _
    refine ⟨ch, rfl, ?_⟩
    simp
  | cons i rest ih =>
    intro ch hw hnd hall
    obtain ⟨hs, hlen, hal⟩ := hw
    rw [List.nodup_cons] at hnd
    obtain ⟨k, hk, hke⟩ := List.mem_iff_getElem.mp (hall i (List.mem_cons_self _ _))
    have hks : k < ch.slots.length := hlen ▸ hk
    have hh : hashItem (vnode node i) ch.ringSize = .ok ch.slots[k] := by
      have := hal _ (getElem_mem_entries hks hk)
      simp only at this
      rwa [hke] at this
    have hidx : (BinarySearch ch.slots ch.slots[k]).1 = k := BinarySearch_index hs hks rfl
    have hstep := removeLoop_cons_delete rest hh hs hlen (List.getElem_mem hks)
    rw [hidx] at hstep
    have hw2 := WellFormed_delete (show WellFormed ch.slots ch.nodes ch.ringSize from ⟨hs, hlen, hal⟩) k
    have hall2 : ∀ j ∈ rest, vnode node j ∈ ch.nodes.take k ++ ch.nodes.drop (k + 1) := by
      intro j hj
      refine mem_delete_of_ne hk (hall j (List.mem_cons_of_mem _ hj)) ?_
      rw [hke]
      intro heq
      have := vnode_injective heq
      exact hnd.1 (this ▸ hj)
    obtain ⟨ch1, hrun, hent⟩ := ih
      { ch with slots := ch.slots.take k ++ ch.slots.drop (k + 1),
                nodes := ch.nodes.take k ++ ch.nodes.drop (k + 1) } hw2 hnd.2 hall2
    refine ⟨ch1, hstep.trans hrun, ?_⟩
    rw [hent]
    simp only
    rw [entries_delete hlen]
    have hek : k < (entries ch.slots ch.nodes).length := by
      rw [entries_length hlen]; exact hks
    have hndE : ((entries ch.slots ch.nodes).map Prod.snd).Nodup := by
      rw [entries_map_snd hlen]; exact nodes_nodup ⟨hs, hlen, hal⟩
    have hEk : ((entries ch.slots ch.nodes)[k]).2 = vnode node i := by
      simp only [entries, List.getElem_zip]
      exact hke
    rw [← filter_ne_getElem Prod.snd _ k hek hndE, List.filter_filter, hEk]
    congr 1
    funext p
    simp only [List.map_cons, List.mem_cons, not_or, Bool.decide_and, ne_eq, Bool.and_comm]

/-! ## `AddNode` and `RemoveNode` on the virtual-node ring -/

/-- C5 (as amended). Success postcondition of `AddNode` on the virtual-node
ring, for `vnodesPerNode ≥ 0`: on a ring with strictly increasing slots and as
many labels as slots, if `AddNode(x)` returns no error then afterwards every
label `"x@i"`, `i` in `[0, vnodesPerNode)`, stands at the index that holds the
slot `hashItem("x@i", ringSize)`; the ring has exactly `vnodesPerNode` more
labels, and as many slots, than before; and the earlier pairs are all there
in their order. -/
theorem addNodeV_postcondition (ch ch1 : ConsistentHasherV) (x : GoString)
    (hv : 0 ≤ ch.vnodesPerNode) (hs : StrictlyIncreasing ch.slots)
    (hlen : ch.slots.length = ch.nodes.length) (h : ch.AddNode x = .ok (ch1, none)) :
    (∀ i : Nat, (i : Int) < ch.vnodesPerNode →
      ∃ (hsh k : Nat), hashItem (vnode x i) ch.ringSize = .ok hsh ∧
        ch1.slots[k]? = some hsh ∧ ch1.nodes[k]? = some (vnode x i)) ∧
    (ch1.nodes.length : Int) = ch.nodes.length + ch.vnodesPerNode ∧
    ch1.slots.length = ch1.nodes.length ∧
    StrictlyIncreasing ch1.slots ∧
    (entries ch.slots ch.nodes).Sublist (entries ch1.slots ch1.nodes) := by
  rcases AddNodeV_cases h with ⟨_, he⟩ | h1
  · cases he
  · obtain ⟨r1, r2, _, _, r5, _, _, _, r9⟩ := addLoop_spec x _ ch ch1 none hs hlen h1
    obtain ⟨q1, q2⟩ := r9 rfl
    refine ⟨?_, ?_, r2, r1, r5⟩
    · intro i hi
      have hi2 : i ∈ List.range ch.vnodesPerNode.toNat := by
        rw [List.mem_range]; omega
      obtain ⟨hsh, hh, hmem⟩ := q2 i hi2
      obtain ⟨k, hk1, hk2⟩ := index_of_mem_entries hmem
      exact ⟨hsh, k, hh, hk1, hk2⟩
    · rw [q1, List.length_range]
      omega

/-- On the virtual-node ring of size 32 with 2 labels per node that holds the
labels of `"S1"`, `AddNode("S0")` returns no error and inserts `"S0@1"` and
`"S0@0"` at the slots 2 and 18. -/
theorem addNodeV_postcondition_witness :
    ConsistentHasherV.AddNode ⟨[[83, 49, 64, 48], [83, 49, 64, 49]], [20, 29], 32, 2⟩ [83, 48] =
      .ok (⟨[[83, 48, 64, 49], [83, 48, 64, 48], [83, 49, 64, 48], [83, 49, 64, 49]],
            [2, 18, 20, 29], 32, 2⟩, none) ∧
    (∀ i : Nat, (i : Int) < 2 →
      ∃ (hsh k : Nat), hashItem (vnode [83, 48] i) 32 = .ok hsh ∧
        [2, 18, 20, 29][k]? = some hsh ∧
        [[83, 48, 64, 49], [83, 48, 64, 48], [83, 49, 64, 48], [83, 49, 64, 49]][k]? =
          some (vnode [83, 48] i)) ∧
    ((4 : Nat) : Int) = (2 : Nat) + 2 := by
  have h : ConsistentHasherV.AddNode ⟨[[83, 49, 64, 48], [83, 49, 64, 49]], [20, 29], 32, 2⟩
      [83, 48] =
      .ok (⟨[[83, 48, 64, 49], [83, 48, 64, 48], [83, 49, 64, 48], [83, 49, 64, 49]],
            [2, 18, 20, 29], 32, 2⟩, none) := by decide
  have := addNodeV_postcondition _ _ _ (by decide) (by decide) (by decide) h
  exact ⟨h, this.1, this.2.1⟩

/-- C5 (counterexample). On the new virtual-node ring of size 4 with
`vnodesPerNode = -1`, `AddNode("x")` returns no error and adds nothing: the
ring then has 0 labels, not `0 + (-1)`. -/
theorem addNodeV_negative_vnodes :
    StrictlyIncreasing (NewConsistentHasherVWithVNodes 4 (-1)).slots ∧
    (NewConsistentHasherVWithVNodes 4 (-1)).slots.length =
      (NewConsistentHasherVWithVNodes 4 (-1)).nodes.length ∧
    (NewConsistentHasherVWithVNodes 4 (-1)).AddNode [120] =
      .ok (NewConsistentHasherVWithVNodes 4 (-1), none) ∧
    ((NewConsistentHasherVWithVNodes 4 (-1)).nodes.length : Int) ≠
      ((NewConsistentHasherVWithVNodes 4 (-1)).nodes.length : Int) + (-1) := by
  decide

/-- C6. `RemoveNode` removes exactly the labels of the node: on a virtual-node
ring reached from a new ring by `AddNode`/`RemoveNode` calls, if all the labels
`"x@0"`, ..., `"x@(vnodesPerNode-1)"` are in the ring then `RemoveNode(x)`
returns no error; afterwards none of these labels and none of their slots is
in the ring, and the pairs of the ring are the earlier pairs with another
label, in their order. -/
theorem removeNode_removes_exactly (ringSize : Nat) (vnodesPerNode : Int) (calls : List Call)
    (ch : ConsistentHasherV) (errs : List (Option Error)) (x : GoString)
    (h : (NewConsistentHasherVWithVNodes ringSize vnodesPerNode).run calls = .ok (ch, errs))
    (hall : ∀ i : Nat, (i : Int) < vnodesPerNode → vnode x i ∈ ch.nodes) :
    ∃ ch1, ch.RemoveNode x = .ok (ch1, none) ∧
      (∀ i : Nat, (i : Int) < vnodesPerNode →
        vnode x i ∉ ch1.nodes ∧ ∀ hsh, hashItem (vnode x i) ringSize = .ok hsh → hsh ∉ ch1.slots) ∧
      ch1.slots.length = ch1.nodes.length ∧
      entries ch1.slots ch1.nodes =
        (entries ch.slots ch.nodes).filter
          (fun p => decide (p.2 ∉ (List.range vnodesPerNode.toNat).map (vnode x))) := by
  obtain ⟨hw, hrs, hvn, _⟩ := runV_new h
  have hall2 : ∀ i ∈ List.range ch.vnodesPerNode.toNat, vnode x i ∈ ch.nodes := by
    intro i hi
    rw [List.mem_range] at hi
    exact hall i (by omega)
  obtain ⟨ch1, hrun, hent⟩ := removeLoop_success x _ ch hw (List.nodup_range _) hall2
  have hrem : ch.RemoveNode x = .ok (ch1, none) := hrun
  obtain ⟨_, r2, _, _, _, _, _, r8⟩ := removeLoop_spec x _ ch ch1 none hw.1 hw.2.1 hrun
  refine ⟨ch1, hrem, ?_, r2, ?_⟩
  · intro i hi
    have hi2 : i ∈ List.range ch.vnodesPerNode.toNat := by
      rw [List.mem_range]; omega
    refine ⟨?_, ?_⟩
    · intro hmem
      rw [← entries_map_snd r2, hent] at hmem
      obtain ⟨p, hp, hpe⟩ := List.mem_map.mp hmem
      have := (List.mem_filter.mp hp).2
      simp only [decide_eq_true_eq] at this
      exact this (hpe ▸ List.mem_map_of_mem _ hi2)
    · intro hsh hh
      exact r8 rfl i hi2 hsh (hrs ▸ hh)
  · rw [hent, hvn]

/-- On the virtual-node ring of size 32 with 2 labels per node, after
`AddNode("S0")` and `AddNode("S1")` both labels of `"S0"` are in the ring, and
`RemoveNode("S0")` leaves the two pairs of `"S1"`. -/
theorem removeNode_removes_exactly_witness :
    (NewConsistentHasherVWithVNodes 32 2).run [.add [83, 48], .add [83, 49]] =
      .ok (⟨[[83, 48, 64, 49], [83, 48, 64, 48], [83, 49, 64, 48], [83, 49, 64, 49]],
            [2, 18, 20, 29], 32, 2⟩, [none, none]) ∧
    (∀ i : Nat, (i : Int) < 2 → vnode [83, 48] i ∈
      [[83, 48, 64, 49], [83, 48, 64, 48], [83, 49, 64, 48], [83, 49, 64, 49]]) ∧
    ConsistentHasherV.RemoveNode
      ⟨[[83, 48, 64, 49], [83, 48, 64, 48], [83, 49, 64, 48], [83, 49, 64, 49]],
        [2, 18, 20, 29], 32, 2⟩ [83, 48] =
      .ok (⟨[[83, 49, 64, 48], [83, 49, 64, 49]], [20, 29], 32, 2⟩, none) ∧
    ∃ ch1, ConsistentHasherV.RemoveNode
      ⟨[[83, 48, 64, 49], [83, 48, 64, 48], [83, 49, 64, 48], [83, 49, 64, 49]],
        [2, 18, 20, 29], 32, 2⟩ [83, 48] = .ok (ch1, none) ∧
      (∀ i : Nat, (i : Int) < 2 →
        vnode [83, 48] i ∉ ch1.nodes ∧
          ∀ hsh, hashItem (vnode [83, 48] i) 32 = .ok hsh → hsh ∉ ch1.slots) ∧
      ch1.slots.length = ch1.nodes.length ∧
      entries ch1.slots ch1.nodes =
        (entries [2, 18, 20, 29]
          [[83, 48, 64, 49], [83, 48, 64, 48], [83, 49, 64, 48], [83, 49, 64, 49]]).filter
          (fun p => decide (p.2 ∉ (List.range (2 : Int).toNat).map (vnode [83, 48]))) := by
  have h : (NewConsistentHasherVWithVNodes 32 2).run [.add [83, 48], .add [83, 49]] =
      .ok (⟨[[83, 48, 64, 49], [83, 48, 64, 48], [83, 49, 64, 48], [83, 49, 64, 49]],
            [2, 18, 20, 29], 32, 2⟩, [none, none]) := by decide
  have hall : ∀ i : Nat, (i : Int) < 2 → vnode [83, 48] i ∈
      [[83, 48, 64, 49], [83, 48, 64, 48], [83, 49, 64, 48], [83, 49, 64, 49]] := by
    intro i hi
    have : i = 0 ∨ i = 1 := by omega
    rcases this with rfl | rfl <;> decide
  exact ⟨h, hall, by decide, removeNode_removes_exactly 32 2 _ _ _ [83, 48] h hall⟩

/-! ## Physical nodes -/

/-- C7 (as amended). Virtual-to-physical stripping, for node names without
`'@'`: on a non-empty virtual-node ring reached from a new ring by
`AddNode`/`RemoveNode` calls whose `AddNode` arguments contain no `'@'`,
`FindNodeFor(key)` returns an identifier without `'@'` that is the argument of
an earlier `AddNode` call of the sequence, one that returned no error or the
collision error. -/
theorem findNodeFor_physical (ringSize : Nat) (vnodesPerNode : Int) (calls : List Call)
    (ch : ConsistentHasherV) (errs : List (Option Error)) (key : GoString)
    (h : (NewConsistentHasherVWithVNodes ringSize vnodesPerNode).run calls = .ok (ch, errs))
    (hat : ∀ n, Call.add n ∈ calls → atSign ∉ n) (hne : ch.nodes ≠ []) :
    ∃ r e, ch.FindNodeFor key = .ok r ∧ atSign ∉ r ∧ (Call.add r, e) ∈ calls.zip errs ∧
      (e = none ∨ e = some .collision) := by
  obtain ⟨hw, _, _, hlab⟩ := runV_new h
  have hpos : 0 < ch.nodes.length := List.length_pos.mpr hne
  have hh := hashItem_ok key (ringSize_ne_zero hw hpos)
  obtain ⟨hidx, hfind⟩ := FindNodeForV_eq hh hw.1 hw.2.1 hpos
  obtain ⟨n, i, e, hl, hmem, he⟩ := hlab _ (List.getElem_mem hidx)
  have hn : atSign ∉ n := hat n (List.of_mem_zip hmem).1
  refine ⟨n, e, ?_, hn, hmem, he⟩
  rw [hfind, hl]
  exact nodeFromVnode_vnode hn i

/-- On the virtual-node ring of size 32 with 2 labels per node, after
`AddNode("S0")`, `AddNode("S1")`, `RemoveNode("S0")` and `RemoveNode("zz")`,
the key `"v"` belongs to `"S1"`. -/
theorem findNodeFor_physical_witness :
    (NewConsistentHasherVWithVNodes 32 2).run
        [.add [83, 48], .add [83, 49], .remove [83, 48], .remove [122, 122]] =
      .ok (⟨[[83, 49, 64, 48], [83, 49, 64, 49]], [20, 29], 32, 2⟩,
        [none, none, none, some .vnodeNotFound]) ∧
    ConsistentHasherV.FindNodeFor ⟨[[83, 49, 64, 48], [83, 49, 64, 49]], [20, 29], 32, 2⟩ [118] =
      .ok [83, 49] ∧
    ∃ r e, ConsistentHasherV.FindNodeFor
        ⟨[[83, 49, 64, 48], [83, 49, 64, 49]], [20, 29], 32, 2⟩ [118] = .ok r ∧
      atSign ∉ r ∧
      (Call.add r, e) ∈
        [Call.add [83, 48], Call.add [83, 49], Call.remove [83, 48], Call.remove [122, 122]].zip
          [none, none, none, some Error.vnodeNotFound] ∧
      (e = none ∨ e = some .collision) := by
  have h : (NewConsistentHasherVWithVNodes 32 2).run
      [.add [83, 48], .add [83, 49], .remove [83, 48], .remove [122, 122]] =
      .ok (⟨[[83, 49, 64, 48], [83, 49, 64, 49]], [20, 29], 32, 2⟩,
        [none, none, none, some .vnodeNotFound]) := by decide
  have hat : ∀ n, Call.add n ∈
      [Call.add [83, 48], Call.add [83, 49], Call.remove [83, 48], Call.remove [122, 122]] →
      atSign ∉ n := by
    intro n hn
    simp only [List.mem_cons, Call.add.injEq, reduceCtorEq, List.not_mem_nil, or_false] at hn
    rcases hn with rfl | rfl <;> decide
  exact ⟨h, by decide, findNodeFor_physical 32 2 _ _ _ [118] h hat (by decide)⟩

/-- C7 (counterexample). (1) On the new virtual-node ring of size 3 with 2
labels per node, `AddNode("a")` inserts `"a@0"` and then returns the collision
error at `"a@1"`; the ring is not empty and `FindNodeFor("k")` returns `"a"`,
though no `AddNode` call returned no error. (2) On the new ring of size 2
with 1 label per node, `AddNode("a@b")` returns no error and
`FindNodeFor("k")` returns `"a"`, which is not the argument `"a@b"`. -/
theorem findNodeFor_not_an_added_node :
    ((NewConsistentHasherVWithVNodes 3 2).run [.add [97]] =
        .ok (⟨[[97, 64, 48]], [1], 3, 2⟩, [some .collision]) ∧
      ConsistentHasherV.FindNodeFor ⟨[[97, 64, 48]], [1], 3, 2⟩ [107] = .ok [97]) ∧
    ((NewConsistentHasherVWithVNodes 2 1).run [.add [97, 64, 98]] =
        .ok (⟨[[97, 64, 98, 64, 48]], [0], 2, 1⟩, [none]) ∧
      ConsistentHasherV.FindNodeFor ⟨[[97, 64, 98, 64, 48]], [0], 2, 1⟩ [107] = .ok [97] ∧
      ([97] : GoString) ≠ [97, 64, 98]) := by
  decide

/-- C8 (defect of the code). On the new virtual-node ring of size 32 with 1
label per node, the calls `AddNode("a@b")`, `AddNode("a")`, `RemoveNode("a")`
all return no error and leave the label `"a@b@0"`; the ring is not empty and
`FindNodeFor("k")` still returns `"a"`, the node that was removed, because
`nodeFromVnode` cuts the label at its first `'@'`. -/
theorem findNodeFor_returns_removed_node :
    (NewConsistentHasherVWithVNodes 32 1).run [.add [97, 64, 98], .add [97], .remove [97]] =
      .ok (⟨[[97, 64, 98, 64, 48]], [30], 32, 1⟩, [none, none, none]) ∧
    nodeFromVnode [97, 64, 98, 64, 48] = .ok [97] ∧
    ConsistentHasherV.FindNodeFor ⟨[[97, 64, 98, 64, 48]], [30], 32, 1⟩ [107] = .ok [97] := by
  decide

/-- C9 (defect of the code). On the new virtual-node ring of size 3 with 1
label per node, after `AddNode("a")` the ring holds the label `"a@0"` at the
slot 1 and not the label `"b@0"`, whose hash is 1 too; `RemoveNode("b")`
returns no error and deletes the label of `"a"`. -/
theorem removeNode_deletes_other_node :
    (NewConsistentHasherVWithVNodes 3 1).run [.add [97]] =
      .ok (⟨[[97, 64, 48]], [1], 3, 1⟩, [none]) ∧
    vnode [98] 0 = [98, 64, 48] ∧ vnode [98] 0 ∉ [([97, 64, 48] : GoString)] ∧
    hashItem [97, 64, 48] 3 = .ok 1 ∧ hashItem [98, 64, 48] 3 = .ok 1 ∧
    ConsistentHasherV.RemoveNode ⟨[[97, 64, 48]], [1], 3, 1⟩ [98] =
      .ok (⟨[], [], 3, 1⟩, none) := by
  decide

/-! ## The capacity check -/

theorem toInt_le (u : Nat) : toInt u ≤ (u : Int) := by
  unfold toInt
  have h1 : u % 2 ^ 64 ≤ u := Nat.mod_le _ _
  split <;> omega

/-- The value the virtual-node ring compares its length with is at most the
exact difference `ringSize - vnodesPerNode`, for an `int` `vnodesPerNode`. -/
theorem wrapInt_threshold_le (u : Nat) (v : Int) (hv : v < 2 ^ 63) :
    wrapInt (toInt u - v) ≤ (u : Int) - v := by
  unfold wrapInt toInt
  have h1 : u % 2 ^ 64 ≤ u := Nat.mod_le _ _
  have h2 : u % 2 ^ 64 < 2 ^ 64 := Nat.mod_lt _ (by norm_num)
  split <;> omega

/-- C11. Capacity enforcement without mutation: `AddNode` on a basic ring
with `len(nodes) ≥ ringSize`, and `AddNode` on a virtual-node ring with
`len(nodes) ≥ ringSize - vnodesPerNode` (the exact difference, `vnodesPerNode`
an `int`), returns the capacity error and leaves the ring as it was. -/
theorem capacity_enforced :
    (∀ (ch : ConsistentHasher) (node : GoString),
      ch.ringSize ≤ ch.nodes.length → ch.AddNode node = .ok (ch, some .ringSizeExceeded)) ∧
    (∀ (ch : ConsistentHasherV) (node : GoString),
      IsInt ch.vnodesPerNode → (ch.ringSize : Int) - ch.vnodesPerNode ≤ ch.nodes.length →
      ch.AddNode node = .ok (ch, some .ringSizeExceeded)) := by
  constructor
  · intro ch node h
    apply AddNode_capacity
    have := toInt_le ch.ringSize
    omega
  · intro ch node hv h
    have := wrapInt_threshold_le ch.ringSize ch.vnodesPerNode hv.2
    unfold ConsistentHasherV.AddNode
    rw [if_pos (by omega)]

/-- The basic ring of size 1 that holds `"a"` refuses `"b"`, and the
virtual-node ring of size 4 with 2 labels per node that holds the two labels
of `"S1"` refuses `"S0"`. -/
theorem capacity_enforced_witness :
    (1 ≤ [([97] : GoString)].length ∧
      ConsistentHasher.AddNode ⟨[[97]], [0], 1⟩ [98] =
        .ok (⟨[[97]], [0], 1⟩, some .ringSizeExceeded)) ∧
    (IsInt 2 ∧ ((4 : Nat) : Int) - 2 ≤ ([[83, 49, 64, 48], [83, 49, 64, 49]] : List GoString).length ∧
      ConsistentHasherV.AddNode ⟨[[83, 49, 64, 48], [83, 49, 64, 49]], [0, 1], 4, 2⟩ [83, 48] =
        .ok (⟨[[83, 49, 64, 48], [83, 49, 64, 49]], [0, 1], 4, 2⟩, some .ringSizeExceeded)) :=
  ⟨⟨by decide, capacity_enforced.1 ⟨[[97]], [0], 1⟩ [98] (by decide)⟩,
    ⟨by decide, by decide,
      capacity_enforced.2 ⟨[[83, 49, 64, 48], [83, 49, 64, 49]], [0, 1], 4, 2⟩ [83, 48]
        (by decide) (by decide)⟩⟩

/-- C12 (defect of the code). On the empty virtual-node ring with
`ringSize = vnodesPerNode = 1`, and on the empty ring `NewConsistentHasherV(10)`
with `ringSize = vnodesPerNode = 10`, exactly `vnodesPerNode` slots are free
(`ringSize - len(slots) < vnodesPerNode` is false), yet `AddNode` returns the
capacity error: the code compares with `>=` where the claim needs `>`. -/
theorem capacity_error_with_enough_free_slots :
    (1 ≤ (NewConsistentHasherVWithVNodes 1 1).vnodesPerNode ∧
      ¬ (((NewConsistentHasherVWithVNodes 1 1).ringSize : Int) -
          (NewConsistentHasherVWithVNodes 1 1).slots.length <
        (NewConsistentHasherVWithVNodes 1 1).vnodesPerNode) ∧
      (NewConsistentHasherVWithVNodes 1 1).AddNode [97] =
        .ok (NewConsistentHasherVWithVNodes 1 1, some .ringSizeExceeded)) ∧
    (1 ≤ (NewConsistentHasherV 10).vnodesPerNode ∧
      ¬ (((NewConsistentHasherV 10).ringSize : Int) - (NewConsistentHasherV 10).slots.length <
        (NewConsistentHasherV 10).vnodesPerNode) ∧
      (NewConsistentHasherV 10).AddNode [83, 48] =
        .ok (NewConsistentHasherV 10, some .ringSizeExceeded)) := by
  decide

/-- C13 (defect of the code). For the ring sizes `2^63` and `2^64 - 1`, both
in `[1, 2^64)`, the empty basic ring holds fewer than `ringSize` nodes, yet
`AddNode` returns the capacity error: `int(ringSize)` is `-2^63` and `-1`. -/
theorem capacity_check_overflows :
    (1 ≤ 2 ^ 63 ∧ 2 ^ 63 < 2 ^ 64 ∧
      (NewConsistentHasher (2 ^ 63)).nodes.length < 2 ^ 63 ∧
      toInt (2 ^ 63) = -2 ^ 63 ∧
      (NewConsistentHasher (2 ^ 63)).AddNode [83, 48] =
        .ok (NewConsistentHasher (2 ^ 63), some .ringSizeExceeded)) ∧
    (1 ≤ 2 ^ 64 - 1 ∧ 2 ^ 64 - 1 < 2 ^ 64 ∧
      (NewConsistentHasher (2 ^ 64 - 1)).nodes.length < 2 ^ 64 - 1 ∧
      toInt (2 ^ 64 - 1) = -1 ∧
      (NewConsistentHasher (2 ^ 64 - 1)).AddNode [83, 48] =
        .ok (NewConsistentHasher (2 ^ 64 - 1), some .ringSizeExceeded)) := by
  decide

/-! ## The empty ring -/

theorem FindNodeFor_nil {ch : ConsistentHasher} (h : ch.nodes = []) (key : GoString) :
    ch.FindNodeFor key = .error .noNodes := by
  simp [ConsistentHasher.FindNodeFor, h]

theorem FindNodeForV_nil {ch : ConsistentHasherV} (h : ch.nodes = []) (key : GoString) :
    ch.FindNodeFor key = .error .noNodes := by
  simp [ConsistentHasherV.FindNodeFor, h]

/-- On a non-empty well-formed basic ring `FindNodeFor` returns a label of
the ring. -/
theorem FindNodeFor_returns {ch : ConsistentHasher}
    (hw : WellFormed ch.slots ch.nodes ch.ringSize) (hne : ch.nodes ≠ []) (key : GoString) :
    ∃ l ∈ ch.nodes, ch.FindNodeFor key = .ok l := by
  have hpos : 0 < ch.nodes.length := List.length_pos.mpr hne
  obtain ⟨hidx, hfind⟩ :=
    FindNodeFor_eq (hashItem_ok key (ringSize_ne_zero hw hpos)) hw.1 hw.2.1 hpos
  exact ⟨_, List.getElem_mem hidx, hfind⟩

/-- On a non-empty well-formed virtual-node ring whose labels all contain
`'@'`, `FindNodeFor` returns the node of a label of the ring. -/
theorem FindNodeForV_returns {ch : ConsistentHasherV}
    (hw : WellFormed ch.slots ch.nodes ch.ringSize) (hne : ch.nodes ≠ [])
    (hlab : ∀ l ∈ ch.nodes, atSign ∈ l) (key : GoString) :
    ∃ l ∈ ch.nodes, ∃ r, nodeFromVnode l = .ok r ∧ ch.FindNodeFor key = .ok r := by
  have hpos : 0 < ch.nodes.length := List.length_pos.mpr hne
  obtain ⟨hidx, hfind⟩ :=
    FindNodeForV_eq (hashItem_ok key (ringSize_ne_zero hw hpos)) hw.1 hw.2.1 hpos
  have hat := hlab _ (List.getElem_mem hidx)
  exact ⟨_, List.getElem_mem hidx, _, nodeFromVnode_of_mem hat,
    hfind.trans (nodeFromVnode_of_mem hat)⟩

/-- C14. `FindNodeFor` fails exactly on the empty ring: on every ring reached
from a new ring (`ringSize > 0`) by `AddNode`/`RemoveNode` calls, of either
variant, `FindNodeFor(key)` panics with "no nodes" if and only if the ring
holds no labels; a new ring panics so for every key; and on the virtual-node
ring every stored label contains `'@'`, so "invalid vnode" never occurs. -/
theorem findNodeFor_fails_iff_empty :
    (∀ (ringSize : Nat) (calls : List GoString) (ch : ConsistentHasher)
        (errs : List (Option Error)) (key : GoString),
      0 < ringSize → (NewConsistentHasher ringSize).run calls = .ok (ch, errs) →
      (ch.FindNodeFor key = .error .noNodes ↔ ch.nodes = []) ∧
      (NewConsistentHasher ringSize).FindNodeFor key = .error .noNodes) ∧
    (∀ (ringSize : Nat) (vnodesPerNode : Int) (calls : List Call) (ch : ConsistentHasherV)
        (errs : List (Option Error)) (key : GoString),
      0 < ringSize →
      (NewConsistentHasherVWithVNodes ringSize vnodesPerNode).run calls = .ok (ch, errs) →
      (ch.FindNodeFor key = .error .noNodes ↔ ch.nodes = []) ∧
      (NewConsistentHasherVWithVNodes ringSize vnodesPerNode).FindNodeFor key =
        .error .noNodes ∧
      (∀ l ∈ ch.nodes, atSign ∈ l) ∧
      ch.FindNodeFor key ≠ .error .invalidVnode) := by
  constructor
  · intro ringSize calls ch errs key hr h
    refine ⟨⟨fun hf => ?_, fun hn => FindNodeFor_nil hn key⟩, FindNodeFor_nil rfl key⟩
    by_contra hne
    obtain ⟨l, _, hl⟩ := FindNodeFor_returns (run_new h).1 hne key
    rw [hl] at hf
    cases hf
  · intro ringSize v calls ch errs key hr h
    have hlab : ∀ l ∈ ch.nodes, atSign ∈ l := by
      intro l hl
      obtain ⟨n, i, _, rfl, _⟩ := (runV_new h).2.2.2 l hl
      exact atSign_mem_vnode n i
    refine ⟨⟨fun hf => ?_, fun hn => FindNodeForV_nil hn key⟩, FindNodeForV_nil rfl key,
      hlab, ?_⟩
    · by_contra hne
      obtain ⟨l, _, r, _, hl⟩ := FindNodeForV_returns (runV_new h).1 hne hlab key
      rw [hl] at hf
      cases hf
    · by_cases hne : ch.nodes = []
      · rw [FindNodeForV_nil hne key]
        intro hc
        cases hc
      · obtain ⟨l, _, r, _, hl⟩ := FindNodeForV_returns (runV_new h).1 hne hlab key
        rw [hl]
        intro hc
        cases hc

/-- A new basic ring of size 16 panics with "no nodes" and, after
`AddNode("S0")`, does not; a virtual-node ring of size 32 with 2 labels per
node panics so after `AddNode("S0")`, `RemoveNode("S0")`, and finds `"S0"`
before the removal. -/
theorem findNodeFor_fails_iff_empty_witness :
    ((NewConsistentHasher 16).run [[83, 48]] = .ok (⟨[[83, 48]], [14], 16⟩, [none]) ∧
      (ConsistentHasher.FindNodeFor ⟨[[83, 48]], [14], 16⟩ [118] = .error .noNodes ↔
        [([83, 48] : GoString)] = []) ∧
      ConsistentHasher.FindNodeFor ⟨[[83, 48]], [14], 16⟩ [118] = .ok [83, 48] ∧
      (NewConsistentHasher 16).FindNodeFor [118] = .error .noNodes) ∧
    ((NewConsistentHasherVWithVNodes 32 2).run [.add [83, 48], .remove [83, 48]] =
        .ok (⟨[], [], 32, 2⟩, [none, none]) ∧
      (ConsistentHasherV.FindNodeFor ⟨[], [], 32, 2⟩ [118] = .error .noNodes ↔
        ([] : List GoString) = []) ∧
      ConsistentHasherV.FindNodeFor ⟨[[83, 48, 64, 49], [83, 48, 64, 48]], [2, 18], 32, 2⟩ [118]
        = .ok [83, 48]) := by
  have h1 : (NewConsistentHasher 16).run [[83, 48]] = .ok (⟨[[83, 48]], [14], 16⟩, [none]) := by
    decide
  have h2 : (NewConsistentHasherVWithVNodes 32 2).run [.add [83, 48], .remove [83, 48]] =
      .ok (⟨[], [], 32, 2⟩, [none, none]) := by decide
  have r1 := findNodeFor_fails_iff_empty.1 16 _ _ _ [118] (by decide) h1
  have r2 := findNodeFor_fails_iff_empty.2 32 2 _ _ _ [118] (by decide) h2
  exact ⟨⟨h1, r1.1, by decide, r1.2⟩, ⟨h2, r2.1, by decide⟩⟩

/-! ## The hash -/

theorem leBytes_length : ∀ (k x : Nat), (leBytes k x).length = k := by
  intro k
  induction k with
  | zero => intro x; rfl
  | succ k ih => intro x; simp [leBytes, ih]

theorem md5Sum_length (msg : List Nat) : (md5Sum msg).length = 16 := by
  simp [md5Sum, leBytes_length]

theorem bigEndian_foldl_lt : ∀ (bs : List Nat) (acc : Nat),
    bs.foldl (fun acc b => 256 * acc + b % 256) acc < (acc + 1) * 256 ^ bs.length := by
  intro bs
  induction bs with
  | nil => intro acc; simp
  | cons b bs ih =>
    intro acc
    have h1 := ih (256 * acc + b % 256)
    have h2 : b % 256 < 256 := Nat.mod_lt _ (by norm_num)
    have h3 : (256 * acc + b % 256 + 1) * 256 ^ bs.length ≤
        (256 * (acc + 1)) * 256 ^ bs.length := Nat.mul_le_mul_right _ (by omega)
    simp only [List.foldl_cons, List.length_cons, pow_succ]
    calc bs.foldl (fun acc b => 256 * acc + b % 256) (256 * acc + b % 256)
        < (256 * acc + b % 256 + 1) * 256 ^ bs.length := h1
      _ ≤ (256 * (acc + 1)) * 256 ^ bs.length := h3
      _ = (acc + 1) * (256 ^ bs.length * 256) := by ring

/-- Eight bytes, or fewer, read big-endian fit in a `uint64`. -/
theorem bigEndianUint64_lt {bs : List Nat} (h : bs.length ≤ 8) : bigEndianUint64 bs < 2 ^ 64 := by
  have h1 := bigEndian_foldl_lt bs 0
  have h2 : 256 ^ bs.length ≤ 256 ^ 8 := Nat.pow_le_pow_right (by norm_num) h
  unfold bigEndianUint64
  have h3 : (256 : Nat) ^ 8 = 2 ^ 64 := by norm_num
  omega

/-- The xor that `hashItem` reduces is a `uint64`: the embedding in the
natural numbers loses nothing. -/
theorem digestXor_lt (item : GoString) : digestXor item < 2 ^ 64 := by
  unfold digestXor
  exact Nat.xor_lt_two_pow (bigEndianUint64_lt (by simp)) (bigEndianUint64_lt (by simp))

/-- C15. Hash contract: for every string and every modulus `m ≥ 1`,
`hashItem(item, m)` returns a value in `[0, m)`, equal to `(hi XOR lo) mod m`
where `hi` and `lo` are the big-endian 64-bit values of the bytes 8..15 and
0..7 of the 16-byte MD5 digest of the bytes of the item; the xor fits in 64
bits; and equal arguments give equal results. -/
theorem hash_contract (item : GoString) (m : Nat) (hm : 1 ≤ m) :
    ∃ h, hashItem item m = .ok h ∧ h < m ∧ (md5Sum item).length = 16 ∧
      h = (bigEndianUint64 (((md5Sum item).drop 8).take 8) ^^^
            bigEndianUint64 ((md5Sum item).take 8)) % m ∧
      (bigEndianUint64 (((md5Sum item).drop 8).take 8) ^^^
            bigEndianUint64 ((md5Sum item).take 8)) < 2 ^ 64 ∧
      ∀ (item2 : GoString) (m2 : Nat), item2 = item → m2 = m →
        hashItem item2 m2 = hashItem item m := by
  have hne : m ≠ 0 := by omega
  refine ⟨_, hashItem_ok item hne, Nat.mod_lt _ (by omega), md5Sum_length item, rfl,
    digestXor_lt item, ?_⟩
  intro item2 m2 h1 h2
  rw [h1, h2]

/-- The MD5 digest of `"a"` is `0cc175b9c0f1b6a831c399e269772661`, and
`hashItem("a", 16)` is 9. -/
theorem hash_contract_witness :
    1 ≤ 16 ∧
    md5Sum [97] = [0x0c, 0xc1, 0x75, 0xb9, 0xc0, 0xf1, 0xb6, 0xa8,
                   0x31, 0xc3, 0x99, 0xe2, 0x69, 0x77, 0x26, 0x61] ∧
    hashItem [97] 16 = .ok 9 ∧
    ∃ h, hashItem [97] 16 = .ok h ∧ h < 16 ∧ (md5Sum [97]).length = 16 ∧
      h = (bigEndianUint64 (((md5Sum [97]).drop 8).take 8) ^^^
            bigEndianUint64 ((md5Sum [97]).take 8)) % 16 ∧
      (bigEndianUint64 (((md5Sum [97]).drop 8).take 8) ^^^
            bigEndianUint64 ((md5Sum [97]).take 8)) < 2 ^ 64 ∧
      ∀ (item2 : GoString) (m2 : Nat), item2 = [97] → m2 = 16 →
        hashItem item2 m2 = hashItem [97] 16 :=
  ⟨by decide, by decide, by decide, hash_contract [97] 16 (by decide)⟩

/-! ## The alignment invariant -/

/-- The consequences of well-formedness that the alignment invariant lists. -/
theorem wellFormed_facts {slots : List Nat} {nodes : List GoString} {ringSize : Nat}
    (hw : WellFormed slots nodes ringSize) :
    (∀ (i : Nat) (h1 : i < slots.length) (h2 : i < nodes.length),
      hashItem nodes[i] ringSize = .ok slots[i]) ∧
    (∀ s ∈ slots, s < ringSize) ∧ slots.length ≤ ringSize := by
  obtain ⟨hs, hlen, hal⟩ := hw
  have hidx : ∀ (i : Nat) (h1 : i < slots.length) (h2 : i < nodes.length),
      hashItem nodes[i] ringSize = .ok slots[i] :=
    fun i h1 h2 => hal (slots[i], nodes[i]) (getElem_mem_entries h1 h2)
  have hlt : ∀ s ∈ slots, s < ringSize := by
    intro s hsm
    obtain ⟨k, hk, rfl⟩ := List.mem_iff_getElem.mp hsm
    have hk2 : k < nodes.length := by rw [← hlen]; exact hk
    exact hashItem_lt (hidx k hk hk2)
  refine ⟨hidx, hlt, ?_⟩
  have hnd : slots.Nodup := nodup_of_strictlyIncreasing hs
  have hsub : slots.toFinset ⊆ Finset.range ringSize := by
    intro s hsm
    rw [List.mem_toFinset] at hsm
    exact Finset.mem_range.mpr (hlt s hsm)
  have := Finset.card_le_card hsub
  rwa [List.toFinset_card_of_nodup hnd, Finset.card_range] at this

/-- C17. Slot/label alignment invariant: for both ring variants with
`ringSize > 0`, in every state reached from a new ring by `AddNode`/`RemoveNode`
calls, those that returned an error after a partial change included, the slots
are strictly increasing, there are as many slots as labels, every slot is the
hash of the label at its index, every slot is below `ringSize`, and there are at
most `ringSize` slots. -/
theorem alignment_invariant :
    (∀ (ringSize : Nat) (calls : List GoString) (ch : ConsistentHasher)
        (errs : List (Option Error)),
      0 < ringSize → (NewConsistentHasher ringSize).run calls = .ok (ch, errs) →
      StrictlyIncreasing ch.slots ∧ ch.slots.length = ch.nodes.length ∧
      (∀ (i : Nat) (h1 : i < ch.slots.length) (h2 : i < ch.nodes.length),
        hashItem ch.nodes[i] ringSize = .ok ch.slots[i]) ∧
      (∀ s ∈ ch.slots, s < ringSize) ∧ ch.slots.length ≤ ringSize) ∧
    (∀ (ringSize : Nat) (vnodesPerNode : Int) (calls : List Call) (ch : ConsistentHasherV)
        (errs : List (Option Error)),
      0 < ringSize →
      (NewConsistentHasherVWithVNodes ringSize vnodesPerNode).run calls = .ok (ch, errs) →
      StrictlyIncreasing ch.slots ∧ ch.slots.length = ch.nodes.length ∧
      (∀ (i : Nat) (h1 : i < ch.slots.length) (h2 : i < ch.nodes.length),
        hashItem ch.nodes[i] ringSize = .ok ch.slots[i]) ∧
      (∀ s ∈ ch.slots, s < ringSize) ∧ ch.slots.length ≤ ringSize) := by
  constructor
  · intro ringSize calls ch errs _ h
    obtain ⟨hw, hrs⟩ := run_new h
    rw [hrs] at hw
    exact ⟨hw.1, hw.2.1, wellFormed_facts hw⟩
  · intro ringSize v calls ch errs _ h
    obtain ⟨hw, hrs, _⟩ := runV_new h
    rw [hrs] at hw
    exact ⟨hw.1, hw.2.1, wellFormed_facts hw⟩

/-- The invariant after a collision on the basic ring of size 16 (`AddNode`
of `"S0"`, `"S1"`, `"S0"`) and after a collision that left one label on the
virtual-node ring of size 3 with 2 labels per node (`AddNode("a")`). -/
theorem alignment_invariant_witness :
    ((NewConsistentHasher 16).run [[83, 48], [83, 49], [83, 48]] =
        .ok (⟨[[83, 49], [83, 48]], [5, 14], 16⟩, [none, none, some .collision]) ∧
      StrictlyIncreasing [5, 14] ∧ [5, 14].length = [([83, 49] : GoString), [83, 48]].length ∧
      (∀ (i : Nat) (_ : i < [5, 14].length) (_ : i < [([83, 49] : GoString), [83, 48]].length),
        hashItem [([83, 49] : GoString), [83, 48]][i] 16 = .ok [5, 14][i]) ∧
      (∀ s ∈ [5, 14], s < 16) ∧ [5, 14].length ≤ 16) ∧
    ((NewConsistentHasherVWithVNodes 3 2).run [.add [97]] =
        .ok (⟨[[97, 64, 48]], [1], 3, 2⟩, [some .collision]) ∧
      StrictlyIncreasing [1] ∧ [1].length = [([97, 64, 48] : GoString)].length ∧
      (∀ (i : Nat) (_ : i < [1].length) (_ : i < [([97, 64, 48] : GoString)].length),
        hashItem [([97, 64, 48] : GoString)][i] 3 = .ok [1][i]) ∧
      (∀ s ∈ [1], s < 3) ∧ [1].length ≤ 3) := by
  have h1 : (NewConsistentHasher 16).run [[83, 48], [83, 49], [83, 48]] =
      .ok (⟨[[83, 49], [83, 48]], [5, 14], 16⟩, [none, none, some .collision]) := by decide
  have h2 : (NewConsistentHasherVWithVNodes 3 2).run [.add [97]] =
      .ok (⟨[[97, 64, 48]], [1], 3, 2⟩, [some .collision]) := by decide
  exact ⟨⟨h1, alignment_invariant.1 16 _ _ _ (by decide) h1⟩,
    ⟨h2, alignment_invariant.2 3 2 _ _ _ (by decide) h2⟩⟩

/-! ## Adding a node that is present -/

/-- In a well-formed ring the hash of a stored label is a slot. -/
theorem hash_mem_slots_of_mem_nodes {slots : List Nat} {nodes : List GoString} {ringSize : Nat}
    (hw : WellFormed slots nodes ringSize) {l : GoString} (hl : l ∈ nodes) :
    ∃ h, hashItem l ringSize = .ok h ∧ h ∈ slots := by
  obtain ⟨_, hlen, hal⟩ := hw
  obtain ⟨k, hk, rfl⟩ := List.mem_iff_getElem.mp hl
  have hk2 : k < slots.length := by rw [hlen]; exact hk
  exact ⟨slots[k], hal (slots[k], nodes[k]) (getElem_mem_entries hk2 hk), List.getElem_mem hk2⟩

theorem range_toNat_of_pos {v : Int} (hv : 1 ≤ v) :
    ∃ rest, List.range v.toNat = 0 :: rest := by
  obtain ⟨n, hn⟩ : ∃ n, v.toNat = n + 1 := ⟨v.toNat - 1, by omega⟩
  rw [hn, List.range_succ_eq_map]
  exact ⟨_, rfl⟩

/-- C20. Re-adding a present node is rejected without change: on a basic
ring reached from a new ring that holds the label `x`, `AddNode(x)` returns an
error (capacity or collision) and leaves the ring as it was; on a virtual-node
ring with `vnodesPerNode ≥ 1` reached from a new ring that holds the label
`"x@0"`, `AddNode(x)` returns an error (capacity, or collision at index 0) and
leaves the ring as it was; and the labels of such rings are pairwise
different. -/
theorem readd_rejected :
    (∀ (ringSize : Nat) (calls : List GoString) (ch : ConsistentHasher)
        (errs : List (Option Error)) (x : GoString),
      (NewConsistentHasher ringSize).run calls = .ok (ch, errs) → x ∈ ch.nodes →
      (ch.AddNode x = .ok (ch, some .ringSizeExceeded) ∨
        ch.AddNode x = .ok (ch, some .collision)) ∧ ch.nodes.Nodup) ∧
    (∀ (ringSize : Nat) (vnodesPerNode : Int) (calls : List Call) (ch : ConsistentHasherV)
        (errs : List (Option Error)) (x : GoString),
      1 ≤ vnodesPerNode →
      (NewConsistentHasherVWithVNodes ringSize vnodesPerNode).run calls = .ok (ch, errs) →
      vnode x 0 ∈ ch.nodes →
      (ch.AddNode x = .ok (ch, some .ringSizeExceeded) ∨
        ch.AddNode x = .ok (ch, some .collision)) ∧ ch.nodes.Nodup) := by
  constructor
  · intro ringSize calls ch errs x h hx
    obtain ⟨hw, _⟩ := run_new h
    refine ⟨?_, nodes_nodup hw⟩
    obtain ⟨hsh, hh, hmem⟩ := hash_mem_slots_of_mem_nodes hw hx
    rcases AddNode_outcome x hw.1 hw.2.1 with ⟨_, h1⟩ | ⟨_, nh, hh2, ⟨_, h1⟩ | ⟨hnot, _⟩⟩
    · exact Or.inl h1
    · exact Or.inr h1
    · rw [hh] at hh2
      cases hh2
      exact absurd hmem hnot
  · intro ringSize v calls ch errs x hv h hx
    obtain ⟨hw, _, hvn, _⟩ := runV_new h
    refine ⟨?_, nodes_nodup hw⟩
    obtain ⟨hsh, hh, hmem⟩ := hash_mem_slots_of_mem_nodes hw hx
    by_cases hcap : (ch.nodes.length : Int) ≥ wrapInt (toInt ch.ringSize - ch.vnodesPerNode)
    · left
      unfold ConsistentHasherV.AddNode
      rw [if_pos hcap]
    · right
      obtain ⟨rest, hrest⟩ := range_toNat_of_pos (hvn ▸ hv)
      unfold ConsistentHasherV.AddNode
      rw [if_neg hcap, hrest]
      exact addLoop_cons_collision rest hh hw.1 hmem

/-- On the basic ring of size 16 after `AddNode` of `"S0"` and `"S1"`, and on
the virtual-node ring of size 32 with 2 labels per node after `AddNode("S0")`,
a second `AddNode("S0")` is a collision and changes nothing. -/
theorem readd_rejected_witness :
    ((NewConsistentHasher 16).run [[83, 48], [83, 49]] =
        .ok (⟨[[83, 49], [83, 48]], [5, 14], 16⟩, [none, none]) ∧
      ConsistentHasher.AddNode ⟨[[83, 49], [83, 48]], [5, 14], 16⟩ [83, 48] =
        .ok (⟨[[83, 49], [83, 48]], [5, 14], 16⟩, some .collision) ∧
      ((ConsistentHasher.AddNode ⟨[[83, 49], [83, 48]], [5, 14], 16⟩ [83, 48] =
          .ok (⟨[[83, 49], [83, 48]], [5, 14], 16⟩, some .ringSizeExceeded) ∨
        ConsistentHasher.AddNode ⟨[[83, 49], [83, 48]], [5, 14], 16⟩ [83, 48] =
          .ok (⟨[[83, 49], [83, 48]], [5, 14], 16⟩, some .collision)) ∧
        [([83, 49] : GoString), [83, 48]].Nodup)) ∧
    ((NewConsistentHasherVWithVNodes 32 2).run [.add [83, 48]] =
        .ok (⟨[[83, 48, 64, 49], [83, 48, 64, 48]], [2, 18], 32, 2⟩, [none]) ∧
      ConsistentHasherV.AddNode ⟨[[83, 48, 64, 49], [83, 48, 64, 48]], [2, 18], 32, 2⟩ [83, 48] =
        .ok (⟨[[83, 48, 64, 49], [83, 48, 64, 48]], [2, 18], 32, 2⟩, some .collision) ∧
      ((ConsistentHasherV.AddNode ⟨[[83, 48, 64, 49], [83, 48, 64, 48]], [2, 18], 32, 2⟩ [83, 48] =
          .ok (⟨[[83, 48, 64, 49], [83, 48, 64, 48]], [2, 18], 32, 2⟩, some .ringSizeExceeded) ∨
        ConsistentHasherV.AddNode ⟨[[83, 48, 64, 49], [83, 48, 64, 48]], [2, 18], 32, 2⟩ [83, 48] =
          .ok (⟨[[83, 48, 64, 49], [83, 48, 64, 48]], [2, 18], 32, 2⟩, some .collision)) ∧
        [([83, 48, 64, 49] : GoString), [83, 48, 64, 48]].Nodup)) := by
  have h1 : (NewConsistentHasher 16).run [[83, 48], [83, 49]] =
      .ok (⟨[[83, 49], [83, 48]], [5, 14], 16⟩, [none, none]) := by decide
  have h2 : (NewConsistentHasherVWithVNodes 32 2).run [.add [83, 48]] =
      .ok (⟨[[83, 48, 64, 49], [83, 48, 64, 48]], [2, 18], 32, 2⟩, [none]) := by decide
  exact ⟨⟨h1, by decide, readd_rejected.1 16 _ _ _ [83, 48] h1 (by decide)⟩,
    ⟨h2, by decide, readd_rejected.2 32 2 _ _ _ [83, 48] (by decide) h2 (by decide)⟩⟩

/-! ## The exact effect of the loops of `AddNode` and `RemoveNode` -/

theorem hashItem_eq_slotOf {item : GoString} {nslots h : Nat}
    (hh : hashItem item nslots = .ok h) : h = slotOf nslots item := by
  unfold hashItem at hh
  split at hh
  · cases hh
  · cases hh; rfl

theorem hashItem_slotOf {nslots : Nat} (hn : nslots ≠ 0) (item : GoString) :
    hashItem item nslots = .ok (slotOf nslots item) := hashItem_ok item hn

theorem mem_insert_iff {x : List Nat} {r t a : Nat} :
    a ∈ x.take r ++ t :: x.drop r ↔ a = t ∨ a ∈ x := by
  rw [List.mem_append, List.mem_cons]
  constructor
  · rintro (h | h | h)
    · exact Or.inr (List.mem_of_mem_take h)
    · exact Or.inl h
    · exact Or.inr (List.mem_of_mem_drop h)
  · rintro (h | h)
    · exact Or.inr (Or.inl h)
    · rw [← List.take_append_drop r x] at h
      rcases List.mem_append.mp h with h | h
      · exact Or.inl h
      · exact Or.inr (Or.inr h)

theorem perm_insert {α : Type} (l : List α) (r : Nat) (a : α) :
    (l.take r ++ a :: l.drop r).Perm (a :: l) := by
  have h := @List.perm_middle α a (l.take r) (l.drop r)
  rwa [List.take_append_drop] at h

/-- A loop of `AddNode` that returns no error: every hash was defined and
fresh, the hashes are pairwise different, and the pairs of the ring are the
old ones and the new ones. -/
theorem addLoop_success_exact (node : GoString) (is : List Nat) :
    ∀ (ch ch1 : ConsistentHasherV),
      StrictlyIncreasing ch.slots → ch.slots.length = ch.nodes.length →
      ch.addLoop node is = .ok (ch1, none) →
      (∀ i ∈ is, hashItem (vnode node i) ch.ringSize =
        .ok (slotOf ch.ringSize (vnode node i))) ∧
      (∀ i ∈ is, slotOf ch.ringSize (vnode node i) ∉ ch.slots) ∧
      (is.map (fun i => slotOf ch.ringSize (vnode node i))).Nodup ∧
      (entries ch1.slots ch1.nodes).Perm
        (entries ch.slots ch.nodes ++ newEntries ch.ringSize node is) := by
  induction is with
  | nil =>
    intro ch ch1 hs hlen h
    simp only [ConsistentHasherV.addLoop, Except.ok.injEq, Prod.mk.injEq] at h
    obtain ⟨rfl, _⟩ := h
    simp [newEntries]
  | cons i rest ih =>
    intro ch ch1 hs hlen h
    cases hh : hashItem (vnode node i) ch.ringSize with
    | error p => rw [addLoop_cons_panic rest hh] at h; cases h
    | ok nh =>
      have hnh := hashItem_eq_slotOf hh
      by_cases hmem : nh ∈ ch.slots
      · rw [addLoop_cons_collision rest hh hs hmem] at h
        cases h
      · rw [addLoop_cons_insert rest hh hs hlen hmem] at h
        have hs2 := insert_sorted hs hmem
        have hle := BinarySearch_le_length hs nh
        have hlen2 : (ch.slots.take (BinarySearch ch.slots nh).1 ++
            nh :: ch.slots.drop (BinarySearch ch.slots nh).1).length =
            (ch.nodes.take (BinarySearch ch.slots nh).1 ++
            vnode node i :: ch.nodes.drop (BinarySearch ch.slots nh).1).length := by
          simp only [List.length_append, List.length_take, List.length_cons, List.length_drop]
          omega
        obtain ⟨r1, r2, r3, r4⟩ := ih _ ch1 hs2 hlen2 h
        simp only at r1 r2 r3 r4
        have hfresh : ∀ k ∈ rest, slotOf ch.ringSize (vnode node k) ≠ nh ∧
            slotOf ch.ringSize (vnode node k) ∉ ch.slots := by
          intro k hk
          have := r2 k hk
          rw [mem_insert_iff, not_or] at this
          exact this
        refine ⟨?_, ?_, ?_, ?_⟩
        · intro k hk
          rcases List.mem_cons.mp hk with rfl | hk2
          · rw [hh, hnh]
          · exact r1 k hk2
        · intro k hk
          rcases List.mem_cons.mp hk with rfl | hk2
          · rw [← hnh]; exact hmem
          · exact (hfresh k hk2).2
        · rw [List.map_cons, List.nodup_cons]
          refine ⟨?_, r3⟩
          intro hc
          obtain ⟨k, hk, hke⟩ := List.mem_map.mp hc
          exact (hfresh k hk).1 (hke.trans hnh.symm)
        · rw [entries_insert hlen] at r4
          refine r4.trans ?_
          have h1 := List.Perm.append_right (newEntries ch.ringSize node rest)
            (perm_insert (entries ch.slots ch.nodes) (BinarySearch ch.slots nh).1
              (nh, vnode node i))
          refine h1.trans ?_
          have h2 : newEntries ch.ringSize node (i :: rest) =
              (nh, vnode node i) :: newEntries ch.ringSize node rest := by
            simp [newEntries, hnh]
          rw [h2]
          exact (List.perm_middle).symm

/-- A loop of `AddNode` whose indices `pre` all have fresh, pairwise different
hashes and whose next index `j` has a hash that is a slot of the ring or the
hash of an index of `pre`: it returns the collision error and the pairs of the
ring are the old ones and those of `pre`. -/
theorem addLoop_collision_exact (node : GoString) (pre : List Nat) :
    ∀ (ch : ConsistentHasherV) (j : Nat) (post : List Nat),
      StrictlyIncreasing ch.slots → ch.slots.length = ch.nodes.length → ch.ringSize ≠ 0 →
      (∀ i ∈ pre, slotOf ch.ringSize (vnode node i) ∉ ch.slots) →
      (pre.map (fun i => slotOf ch.ringSize (vnode node i))).Nodup →
      (slotOf ch.ringSize (vnode node j) ∈ ch.slots ∨
        slotOf ch.ringSize (vnode node j) ∈
          pre.map (fun i => slotOf ch.ringSize (vnode node i))) →
      ∃ ch1, ch.addLoop node (pre ++ j :: post) = .ok (ch1, some .collision) ∧
        ch1.ringSize = ch.ringSize ∧ ch1.vnodesPerNode = ch.vnodesPerNode ∧
        StrictlyIncreasing ch1.slots ∧ ch1.slots.length = ch1.nodes.length ∧
        (entries ch1.slots ch1.nodes).Perm
          (entries ch.slots ch.nodes ++ newEntries ch.ringSize node pre) ∧
        (entries ch.slots ch.nodes).Sublist (entries ch1.slots ch1.nodes) := by
  induction pre with
  | nil =>
    intro ch j post hs hlen hr _ _ hcol
    have hmem : slotOf ch.ringSize (vnode node j) ∈ ch.slots := by
      rcases hcol with h | h
      · exact h
      · exact absurd h (List.not_mem_nil _)
    refine ⟨ch, addLoop_cons_collision post (hashItem_slotOf hr _) hs hmem, rfl, rfl, hs, hlen,
      ?_, List.Sublist.refl _⟩
    simp [newEntries]
  | cons i pre ih =>
    intro ch j post hs hlen hr hfresh hnd hcol
    rw [List.map_cons, List.nodup_cons] at hnd
    have hmem : slotOf ch.ringSize (vnode node i) ∉ ch.slots := hfresh i (List.mem_cons_self _ _)
    have hstep := addLoop_cons_insert (pre ++ j :: post) (hashItem_slotOf hr (vnode node i))
      hs hlen hmem
    have hs2 := insert_sorted hs hmem
    have hle := BinarySearch_le_length hs (slotOf ch.ringSize (vnode node i))
    have hlen2 : (ch.slots.take (BinarySearch ch.slots (slotOf ch.ringSize (vnode node i))).1 ++
        slotOf ch.ringSize (vnode node i) ::
          ch.slots.drop (BinarySearch ch.slots (slotOf ch.ringSize (vnode node i))).1).length =
        (ch.nodes.take (BinarySearch ch.slots (slotOf ch.ringSize (vnode node i))).1 ++
        vnode node i ::
          ch.nodes.drop (BinarySearch ch.slots (slotOf ch.ringSize (vnode node i))).1).length := by
      simp only [List.length_append, List.length_take, List.length_cons, List.length_drop]
      omega
    obtain ⟨ch1, q1, q2, q3, q4, q5, q6, q7⟩ := ih
      { ch with
        slots := ch.slots.take (BinarySearch ch.slots (slotOf ch.ringSize (vnode node i))).1 ++
          slotOf ch.ringSize (vnode node i) ::
            ch.slots.drop (BinarySearch ch.slots (slotOf ch.ringSize (vnode node i))).1,
        nodes := ch.nodes.take (BinarySearch ch.slots (slotOf ch.ringSize (vnode node i))).1 ++
          vnode node i ::
            ch.nodes.drop (BinarySearch ch.slots (slotOf ch.ringSize (vnode node i))).1 }
      j post hs2 hlen2 hr
      (by
        intro k hk
        simp only
        rw [mem_insert_iff, not_or]
        refine ⟨?_, hfresh k (List.mem_cons_of_mem _ hk)⟩
        intro hc
        exact hnd.1 (List.mem_map.mpr ⟨k, hk, hc⟩))
      hnd.2
      (by
        simp only
        rw [mem_insert_iff]
        rcases hcol with h | h
        · exact Or.inl (Or.inr h)
        · rw [List.map_cons, List.mem_cons] at h
          rcases h with h | h
          · exact Or.inl (Or.inl h)
          · exact Or.inr h)
    simp only at q2 q3 q6 q7
    rw [entries_insert hlen] at q6 q7
    refine ⟨ch1, ?_, q2, q3, q4, q5, ?_, (sublist_insert _ _ _).trans q7⟩
    · rw [List.cons_append, hstep]
      exact q1
    · refine q6.trans ?_
      have h1 := List.Perm.append_right (newEntries ch.ringSize node pre)
        (perm_insert (entries ch.slots ch.nodes)
          (BinarySearch ch.slots (slotOf ch.ringSize (vnode node i))).1
          (slotOf ch.ringSize (vnode node i), vnode node i))
      refine h1.trans ?_
      have h2 : newEntries ch.ringSize node (i :: pre) =
          (slotOf ch.ringSize (vnode node i), vnode node i) ::
            newEntries ch.ringSize node pre := by
        simp [newEntries]
      rw [h2]
      exact (List.perm_middle).symm

theorem slotLt_entries {slots : List Nat} {nodes : List GoString}
    (hs : StrictlyIncreasing slots) (hlen : slots.length = nodes.length) :
    (entries slots nodes).Pairwise slotLt := by
  have h : ((entries slots nodes).map Prod.fst).Pairwise (· < ·) := by
    rw [entries_map_fst hlen]; exact hs
  show List.Pairwise (fun p q : Nat × GoString => p.1 < q.1) _
  exact List.pairwise_map.mp h

/-- Two lists of pairs with the same elements, both strictly increasing in
the slot, are the same list. -/
theorem eq_of_perm_of_slotLt {l1 l2 : List (Nat × GoString)} (hp : l1.Perm l2)
    (h1 : l1.Pairwise slotLt) (h2 : l2.Pairwise slotLt) : l1 = l2 := by
  haveI : IsAntisymm (Nat × GoString) slotLt :=
    ⟨fun a b hab hba => absurd hab (Nat.lt_asymm hba)⟩
  exact List.eq_of_perm_of_sorted hp h1 h2

/-- When every slot the loop of `RemoveNode` looks for is in the ring, and
these slots are pairwise different, the loop returns no error and the ring it
leaves is the old one without the pairs at those slots. -/
theorem removeLoop_by_slots (node : GoString) (is : List Nat) :
    ∀ (ch : ConsistentHasherV), StrictlyIncreasing ch.slots →
      ch.slots.length = ch.nodes.length →
      (∀ i ∈ is, hashItem (vnode node i) ch.ringSize =
        .ok (slotOf ch.ringSize (vnode node i))) →
      (is.map (fun i => slotOf ch.ringSize (vnode node i))).Nodup →
      (∀ i ∈ is, slotOf ch.ringSize (vnode node i) ∈ ch.slots) →
      ∃ ch1, ch.removeLoop node is = .ok (ch1, none) ∧
        ch1.ringSize = ch.ringSize ∧ ch1.vnodesPerNode = ch.vnodesPerNode ∧
        StrictlyIncreasing ch1.slots ∧ ch1.slots.length = ch1.nodes.length ∧
        entries ch1.slots ch1.nodes =
          (entries ch.slots ch.nodes).filter
            (fun p => decide (p.1 ∉ is.map (fun i => slotOf ch.ringSize (vnode node i)))) := by
  induction is with
  | nil =>
    intro ch hs hlen _ _ _
    refine ⟨ch, rfl, rfl, rfl, hs, hlen, ?_⟩
    simp
  | cons i rest ih =>
    intro ch hs hlen hr hnd hall
    rw [List.map_cons, List.nodup_cons] at hnd
    obtain ⟨k, hk, hke⟩ := List.mem_iff_getElem.mp (hall i (List.mem_cons_self _ _))
    have hidx : (BinarySearch ch.slots (slotOf ch.ringSize (vnode node i))).1 = k :=
      BinarySearch_index hs hk hke
    have hstep := removeLoop_cons_delete rest (hr i (List.mem_cons_self _ _)) hs hlen
      (hall i (List.mem_cons_self _ _))
    rw [hidx] at hstep
    have hs2 := delete_sorted hs k
    have hlen2 : (ch.slots.take k ++ ch.slots.drop (k + 1)).length =
        (ch.nodes.take k ++ ch.nodes.drop (k + 1)).length := by
      simp only [List.length_append, List.length_take, List.length_drop]
      omega
    have hall2 : ∀ j ∈ rest, slotOf ch.ringSize (vnode node j) ∈
        ch.slots.take k ++ ch.slots.drop (k + 1) := by
      intro j hj
      refine mem_delete_of_ne hk (hall j (List.mem_cons_of_mem _ hj)) ?_
      rw [hke]
      intro heq
      exact hnd.1 (List.mem_map.mpr ⟨j, hj, heq⟩)
    obtain ⟨ch1, q1, q2, q3, q4, q5, q6⟩ := ih
      { ch with slots := ch.slots.take k ++ ch.slots.drop (k + 1),
                nodes := ch.nodes.take k ++ ch.nodes.drop (k + 1) } hs2 hlen2
      (fun j hj => hr j (List.mem_cons_of_mem _ hj)) hnd.2 hall2
    simp only at q2 q3 q6
    refine ⟨ch1, hstep.trans q1, q2, q3, q4, q5, ?_⟩
    rw [q6, entries_delete hlen]
    have hek : k < (entries ch.slots ch.nodes).length := by
      rw [entries_length hlen]; exact hk
    have hndE : ((entries ch.slots ch.nodes).map Prod.fst).Nodup := by
      rw [entries_map_fst hlen]; exact nodup_of_strictlyIncreasing hs
    have hEk : ((entries ch.slots ch.nodes)[k]).1 = slotOf ch.ringSize (vnode node i) := by
      simp only [entries, List.getElem_zip]
      exact hke
    rw [← filter_ne_getElem Prod.fst _ k hek hndE, List.filter_filter, hEk]
    congr 1
    funext p
    simp only [List.map_cons, List.mem_cons, not_or, Bool.decide_and, ne_eq, Bool.and_comm]

/-- The capacity check of the virtual-node ring cannot pass on a ring of size
0 that has a virtual node to insert. -/
theorem ringSize_ne_zero_of_capacity {ch : ConsistentHasherV} (hv : IsInt ch.vnodesPerNode)
    (hpos : 1 ≤ ch.vnodesPerNode)
    (hcap : (ch.nodes.length : Int) < wrapInt (toInt ch.ringSize - ch.vnodesPerNode)) :
    ch.ringSize ≠ 0 := by
  intro h0
  rw [h0] at hcap
  unfold wrapInt toInt IsInt at *
  simp only [Nat.zero_mod] at hcap
  omega

theorem range_split {j n : Nat} (h : j < n) :
    ∃ post, List.range n = List.range j ++ j :: post := by
  obtain ⟨d, rfl⟩ : ∃ d, n = j + (d + 1) := ⟨n - j - 1, by omega⟩
  rw [List.range_add, List.range_succ_eq_map, List.map_cons]
  exact ⟨_, rfl⟩

/-- The effect of `AddNode` on a virtual-node ring with strictly increasing
slots and as many labels as slots that passes the capacity check, when the
indices below `j` have fresh, pairwise different hashes and the hash of index
`j` is a slot of the ring or the hash of an index below `j`: the collision
error, and a ring whose pairs are the old pairs and those of the indices below
`j`. -/
theorem AddNodeV_partial (ch : ConsistentHasherV) (x : GoString) (j : Nat)
    (hs : StrictlyIncreasing ch.slots) (hlen : ch.slots.length = ch.nodes.length)
    (hv : IsInt ch.vnodesPerNode)
    (hcap : (ch.nodes.length : Int) < wrapInt (toInt ch.ringSize - ch.vnodesPerNode))
    (hj : (j : Int) < ch.vnodesPerNode)
    (hfresh : ∀ i, i < j → slotOf ch.ringSize (vnode x i) ∉ ch.slots ∧
      ∀ i2, i2 < i → slotOf ch.ringSize (vnode x i2) ≠ slotOf ch.ringSize (vnode x i))
    (hcol : slotOf ch.ringSize (vnode x j) ∈ ch.slots ∨
      ∃ i, i < j ∧ slotOf ch.ringSize (vnode x i) = slotOf ch.ringSize (vnode x j)) :
    ∃ ch1, ch.AddNode x = .ok (ch1, some .collision) ∧
      hashItem (vnode x j) ch.ringSize = .ok (slotOf ch.ringSize (vnode x j)) ∧
      ch1.ringSize = ch.ringSize ∧ ch1.vnodesPerNode = ch.vnodesPerNode ∧
      StrictlyIncreasing ch1.slots ∧ ch1.slots.length = ch1.nodes.length ∧
      (entries ch1.slots ch1.nodes).Perm
        (entries ch.slots ch.nodes ++
          (List.range j).map (fun i => (slotOf ch.ringSize (vnode x i), vnode x i))) ∧
      (entries ch.slots ch.nodes).Sublist (entries ch1.slots ch1.nodes) := by
  have hr : ch.ringSize ≠ 0 := ringSize_ne_zero_of_capacity hv (by omega) hcap
  obtain ⟨post, hpost⟩ := range_split (show j < ch.vnodesPerNode.toNat by omega)
  have hnd : ((List.range j).map (fun i => slotOf ch.ringSize (vnode x i))).Nodup := by
    rw [List.nodup_map_iff_inj_on (List.nodup_range j)]
    intro a ha b hb hab
    rw [List.mem_range] at ha hb
    rcases Nat.lt_trichotomy a b with h | h | h
    · exact absurd hab ((hfresh b hb).2 a h)
    · exact h
    · exact absurd hab.symm ((hfresh a ha).2 b h)
  obtain ⟨ch1, q1, q2, q3, q4, q5, q6, q7⟩ := addLoop_collision_exact x (List.range j) ch j post
    hs hlen hr (fun i hi => (hfresh i (List.mem_range.mp hi)).1) hnd
    (by
      rcases hcol with h | ⟨i, hi, hie⟩
      · exact Or.inl h
      · exact Or.inr (List.mem_map.mpr ⟨i, List.mem_range.mpr hi, hie⟩))
  refine ⟨ch1, ?_, hashItem_slotOf hr _, q2, q3, q4, q5, q6, q7⟩
  unfold ConsistentHasherV.AddNode
  rw [if_neg (not_le.mpr hcap), hpost]
  exact q1

/-- C16. Partial insertion on a mid-loop collision: on every virtual-node
ring reached from a new ring by `AddNode`/`RemoveNode` calls (so with strictly
increasing slots) that passes the capacity check (`vnodesPerNode` an `int`), if
`j` is the first index in `[0, vnodesPerNode)` whose hash is in the ring when it
is processed (the hashes of the indices below `j` are not slots of the ring and
are pairwise different; the hash of `"x@j"` is a slot of the ring or the hash of
an index below `j`), then `AddNode(x)` returns the collision error, the ring
keeps its parameters, its slots are strictly increasing with as many labels,
and its pairs are the pairs of the original ring, in their order, and the `j`
pairs `(hashItem("x@i"), "x@i")`, `i < j`. -/
theorem partial_insertion (ringSize : Nat) (vnodesPerNode : Int) (calls : List Call)
    (ch : ConsistentHasherV) (errs : List (Option Error)) (x : GoString) (j : Nat)
    (hrun : (NewConsistentHasherVWithVNodes ringSize vnodesPerNode).run calls = .ok (ch, errs))
    (hv : IsInt ch.vnodesPerNode)
    (hcap : (ch.nodes.length : Int) < wrapInt (toInt ch.ringSize - ch.vnodesPerNode))
    (hj : (j : Int) < ch.vnodesPerNode)
    (hfresh : ∀ i, i < j → slotOf ch.ringSize (vnode x i) ∉ ch.slots ∧
      ∀ i2, i2 < i → slotOf ch.ringSize (vnode x i2) ≠ slotOf ch.ringSize (vnode x i))
    (hcol : slotOf ch.ringSize (vnode x j) ∈ ch.slots ∨
      ∃ i, i < j ∧ slotOf ch.ringSize (vnode x i) = slotOf ch.ringSize (vnode x j)) :
    StrictlyIncreasing ch.slots ∧
    ∃ ch1, ch.AddNode x = .ok (ch1, some .collision) ∧
      hashItem (vnode x j) ch.ringSize = .ok (slotOf ch.ringSize (vnode x j)) ∧
      ch1.ringSize = ch.ringSize ∧ ch1.vnodesPerNode = ch.vnodesPerNode ∧
      StrictlyIncreasing ch1.slots ∧ ch1.slots.length = ch1.nodes.length ∧
      (entries ch1.slots ch1.nodes).Perm
        (entries ch.slots ch.nodes ++
          (List.range j).map (fun i => (slotOf ch.ringSize (vnode x i), vnode x i))) ∧
      (entries ch.slots ch.nodes).Sublist (entries ch1.slots ch1.nodes) := by
  obtain ⟨hw, _⟩ := runV_new hrun
  exact ⟨hw.1, AddNodeV_partial ch x j hw.1 hw.2.1 hv hcap hj hfresh hcol⟩

/-- On the virtual-node ring of size 16 with 4 labels per node, `AddNode("S0")`
leaves `"S0@0"` at the slot 2 and returns the collision error; the hashes of
`"S1@0"`, ..., `"S1@3"` are 4, 13, 9, 13, so `AddNode("S1")` then inserts three
labels and returns the collision error at index 3. -/
theorem partial_insertion_witness :
    (NewConsistentHasherVWithVNodes 16 4).run [.add [83, 48]] =
      .ok (⟨[[83, 48, 64, 48]], [2], 16, 4⟩, [some .collision]) ∧
    ConsistentHasherV.AddNode ⟨[[83, 48, 64, 48]], [2], 16, 4⟩ [83, 49] =
      .ok (⟨[[83, 48, 64, 48], [83, 49, 64, 48], [83, 49, 64, 50], [83, 49, 64, 49]],
            [2, 4, 9, 13], 16, 4⟩, some .collision) ∧
    StrictlyIncreasing [2] ∧
    ∃ ch1, ConsistentHasherV.AddNode ⟨[[83, 48, 64, 48]], [2], 16, 4⟩ [83, 49] =
        .ok (ch1, some .collision) ∧
      hashItem (vnode [83, 49] 3) 16 = .ok (slotOf 16 (vnode [83, 49] 3)) ∧
      ch1.ringSize = 16 ∧ ch1.vnodesPerNode = 4 ∧
      StrictlyIncreasing ch1.slots ∧ ch1.slots.length = ch1.nodes.length ∧
      (entries ch1.slots ch1.nodes).Perm
        (entries [2] [[83, 48, 64, 48]] ++
          (List.range 3).map (fun i => (slotOf 16 (vnode [83, 49] i), vnode [83, 49] i))) ∧
      (entries [2] [[83, 48, 64, 48]]).Sublist (entries ch1.slots ch1.nodes) := by
  have h : (NewConsistentHasherVWithVNodes 16 4).run [.add [83, 48]] =
      .ok (⟨[[83, 48, 64, 48]], [2], 16, 4⟩, [some .collision]) := by decide
  refine ⟨h, by decide, ?_⟩
  refine partial_insertion 16 4 _ _ _ [83, 49] 3 h
    (by decide) (by decide) (by decide) ?_ ?_
  · intro i hi
    have hi3 : i = 0 ∨ i = 1 ∨ i = 2 := by omega
    refine ⟨?_, ?_⟩
    · rcases hi3 with rfl | rfl | rfl <;> decide
    · intro i2 h2
      have hcases : (i2 = 0 ∧ i = 1) ∨ (i2 = 0 ∧ i = 2) ∨ (i2 = 1 ∧ i = 2) := by omega
      rcases hcases with ⟨rfl, rfl⟩ | ⟨rfl, rfl⟩ | ⟨rfl, rfl⟩ <;> decide
  · exact Or.inr ⟨1, by decide, by decide⟩

/-! ## Adding a node and removing it again -/

/-- C19. Add/remove round trip: on a virtual-node ring with strictly
increasing slots and as many labels as slots, if `AddNode(x)` returns no error
then `RemoveNode(x)`, called next, returns no error and leaves the ring exactly
as it was before the `AddNode`. -/
theorem add_remove_round_trip (ch ch1 : ConsistentHasherV) (x : GoString)
    (hs : StrictlyIncreasing ch.slots) (hlen : ch.slots.length = ch.nodes.length)
    (h : ch.AddNode x = .ok (ch1, none)) :
    ch1.RemoveNode x = .ok (ch, none) ∧ ∃ ch2, ch1.RemoveNode x = .ok (ch2, none) ∧
      ch2.slots = ch.slots ∧ ch2.nodes = ch.nodes := by
  rcases AddNodeV_cases h with ⟨_, he⟩ | h1
  · cases he
  · obtain ⟨r1, r2, r3, r4, _⟩ := addLoop_spec x _ ch ch1 none hs hlen h1
    obtain ⟨e1, e2, e3, e4⟩ := addLoop_success_exact x _ ch ch1 hs hlen h1
    have hin : ∀ i ∈ List.range ch.vnodesPerNode.toNat,
        slotOf ch.ringSize (vnode x i) ∈ ch1.slots := by
      intro i hi
      have hmem : (slotOf ch.ringSize (vnode x i), vnode x i) ∈ entries ch1.slots ch1.nodes := by
        rw [e4.mem_iff]
        exact List.mem_append_right _ (List.mem_map.mpr ⟨i, hi, rfl⟩)
      exact (List.of_mem_zip hmem).1
    obtain ⟨ch2, q1, q2, q3, q4, q5, q6⟩ := removeLoop_by_slots x
      (List.range ch.vnodesPerNode.toNat) ch1 r1 r2
      (by rw [r3]; exact e1) (by rw [r3]; exact e3) (by rw [r3]; exact hin)
    rw [r3] at q6
    have hperm : (entries ch2.slots ch2.nodes).Perm (entries ch.slots ch.nodes) := by
      rw [q6]
      refine (List.Perm.filter _ e4).trans ?_
      rw [List.filter_append]
      have hE : (entries ch.slots ch.nodes).filter
          (fun p => decide (p.1 ∉ (List.range ch.vnodesPerNode.toNat).map
            (fun i => slotOf ch.ringSize (vnode x i)))) = entries ch.slots ch.nodes := by
        rw [List.filter_eq_self]
        intro p hp
        rw [decide_eq_true_eq]
        intro hc
        obtain ⟨i, hi, hie⟩ := List.mem_map.mp hc
        have hp1 : p.1 ∈ ch.slots := (List.of_mem_zip (show (p.1, p.2) ∈ _ from hp)).1
        exact e2 i hi (hie ▸ hp1)
      have hN : (newEntries ch.ringSize x (List.range ch.vnodesPerNode.toNat)).filter
          (fun p => decide (p.1 ∉ (List.range ch.vnodesPerNode.toNat).map
            (fun i => slotOf ch.ringSize (vnode x i)))) = [] := by
        rw [List.filter_eq_nil_iff]
        intro p hp
        obtain ⟨i, hi, rfl⟩ := List.mem_map.mp hp
        rw [decide_eq_true_eq, not_not]
        exact List.mem_map.mpr ⟨i, hi, rfl⟩
      rw [hE, hN, List.append_nil]
    have heq := eq_of_perm_of_slotLt hperm (slotLt_entries q4 q5) (slotLt_entries hs hlen)
    have hslots : ch2.slots = ch.slots := by
      rw [← entries_map_fst q5, heq, entries_map_fst hlen]
    have hnodes : ch2.nodes = ch.nodes := by
      rw [← entries_map_snd q5, heq, entries_map_snd hlen]
    have hch : ch2 = ch := by
      cases ch2
      cases ch
      simp only [ConsistentHasherV.mk.injEq]
      simp only at hslots hnodes q2 q3 r3 r4
      exact ⟨hnodes, hslots, q2.trans r3, q3.trans r4⟩
    have hrem : ch1.RemoveNode x = .ok (ch2, none) := by
      unfold ConsistentHasherV.RemoveNode
      rw [r4]
      exact q1
    rw [hch] at hrem
    exact ⟨hrem, ch, hrem, rfl, rfl⟩

/-- On the virtual-node ring of size 32 with 2 labels per node that holds
the labels of `"S1"`, `AddNode("S0")` and then `RemoveNode("S0")` give the
ring back. -/
theorem add_remove_round_trip_witness :
    ConsistentHasherV.AddNode ⟨[[83, 49, 64, 48], [83, 49, 64, 49]], [20, 29], 32, 2⟩ [83, 48] =
      .ok (⟨[[83, 48, 64, 49], [83, 48, 64, 48], [83, 49, 64, 48], [83, 49, 64, 49]],
            [2, 18, 20, 29], 32, 2⟩, none) ∧
    ConsistentHasherV.RemoveNode
      ⟨[[83, 48, 64, 49], [83, 48, 64, 48], [83, 49, 64, 48], [83, 49, 64, 49]],
        [2, 18, 20, 29], 32, 2⟩ [83, 48] =
      .ok (⟨[[83, 49, 64, 48], [83, 49, 64, 49]], [20, 29], 32, 2⟩, none) := by
  have h : ConsistentHasherV.AddNode ⟨[[83, 49, 64, 48], [83, 49, 64, 49]], [20, 29], 32, 2⟩
      [83, 48] =
      .ok (⟨[[83, 48, 64, 49], [83, 48, 64, 48], [83, 49, 64, 48], [83, 49, 64, 49]],
            [2, 18, 20, 29], 32, 2⟩, none) := by decide
  exact ⟨h, (add_remove_round_trip _ _ _ (by decide) (by decide) h).1⟩

/-! ## Key movement when a node is added -/

/-- On a non-empty strictly increasing slice the slot at the index that
`FindNodeFor` reads owns the hash. -/
theorem owner_lookupIndex {slots : List Nat} (hs : StrictlyIncreasing slots) (h : Nat)
    (hidx : lookupIndex slots h < slots.length) :
    Owner slots h slots[lookupIndex slots h] := by
  refine ⟨List.getElem_mem hidx, ?_⟩
  obtain ⟨hrule1, hrule2⟩ := lookupIndex_rule hs h
  by_cases hex : ∃ s ∈ slots, h ≤ s
  · obtain ⟨_, hge, hmin⟩ := hrule1 hex
    exact Or.inl ⟨hge, hmin⟩
  · have hall : ∀ s ∈ slots, s < h := by
      intro s hsm
      by_contra hc
      exact hex ⟨s, hsm, not_lt.mp hc⟩
    have h0 := hrule2 hall
    refine Or.inr ⟨hall, ?_⟩
    intro t ht
    obtain ⟨k, hk, rfl⟩ := List.mem_iff_getElem.mp ht
    have := getD_le_of_sorted hs (Nat.zero_le k) hk
    rw [List.getD_eq_getElem slots 0 hk, List.getD_eq_getElem slots 0 (by omega)] at this
    simp only [h0]
    exact this

theorem owner_unique {slots : List Nat} {h s1 s2 : Nat} (h1 : Owner slots h s1)
    (h2 : Owner slots h s2) : s1 = s2 := by
  obtain ⟨m1, c1⟩ := h1
  obtain ⟨m2, c2⟩ := h2
  rcases c1 with ⟨g1, n1⟩ | ⟨a1, n1⟩ <;> rcases c2 with ⟨g2, n2⟩ | ⟨a2, n2⟩
  · exact le_antisymm (n1 s2 m2 g2) (n2 s1 m1 g1)
  · have := a2 s1 m1; omega
  · have := a1 s2 m2; omega
  · exact le_antisymm (n1 s2 m2) (n2 s1 m1)

/-- The owner of a hash among more slots, if it is one of the fewer slots,
owns the hash among them too. -/
theorem owner_of_subset {slots slots1 : List Nat} {h s : Nat}
    (hsub : ∀ t ∈ slots, t ∈ slots1) (ho : Owner slots1 h s) (hm : s ∈ slots) :
    Owner slots h s := by
  obtain ⟨_, c⟩ := ho
  refine ⟨hm, ?_⟩
  rcases c with ⟨g, n⟩ | ⟨a, n⟩
  · exact Or.inl ⟨g, fun t ht hge => n t (hsub t ht) hge⟩
  · exact Or.inr ⟨fun t ht => a t (hsub t ht), fun t ht => n t (hsub t ht)⟩

/-- When a ring gains pairs, the label a hash resolves to is the one it
resolved to before or the label of a pair that was not there. -/
theorem lookup_after_gain {slots slots1 : List Nat} {nodes nodes1 : List GoString}
    (hs : StrictlyIncreasing slots) (hlen : slots.length = nodes.length)
    (hs1 : StrictlyIncreasing slots1)
    (hsub : ∀ p ∈ entries slots nodes, p ∈ entries slots1 nodes1) (h : Nat)
    (hi : lookupIndex slots h < nodes.length) (hi1 : lookupIndex slots1 h < nodes1.length)
    (hj1 : lookupIndex slots1 h < slots1.length) :
    nodes1[lookupIndex slots1 h] = nodes[lookupIndex slots h] ∨
      (slots1[lookupIndex slots1 h], nodes1[lookupIndex slots1 h]) ∉ entries slots nodes := by
  have hj : lookupIndex slots h < slots.length := hlen ▸ hi
  by_cases hin : (slots1[lookupIndex slots1 h], nodes1[lookupIndex slots1 h]) ∈
      entries slots nodes
  · left
    have hslot_sub : ∀ t ∈ slots, t ∈ slots1 := by
      intro t ht
      obtain ⟨k, hk, rfl⟩ := List.mem_iff_getElem.mp ht
      have hk2 : k < nodes.length := by rw [← hlen]; exact hk
      exact (List.of_mem_zip (hsub _ (getElem_mem_entries hk hk2))).1
    have ho := owner_of_subset hslot_sub (owner_lookupIndex hs1 h hj1) (List.of_mem_zip hin).1
    have heq := owner_unique ho (owner_lookupIndex hs h hj)
    rw [heq] at hin
    exact entries_slot_unique hs hin (getElem_mem_entries hj hi)
  · exact Or.inr hin

/-- The lookup of the virtual-node ring is the lookup of the basic ring on
the same slices followed by `nodeFromVnode`. -/
theorem FindNodeForV_eq_bind (ch : ConsistentHasherV) (key : GoString) :
    ch.FindNodeFor key =
      (ConsistentHasher.FindNodeFor ⟨ch.nodes, ch.slots, ch.ringSize⟩ key).bind nodeFromVnode := by
  unfold ConsistentHasherV.FindNodeFor ConsistentHasher.FindNodeFor
  by_cases h0 : ch.nodes.length = 0
  · simp only [h0, if_true]; rfl
  · simp only [h0, if_false]
    cases hashItem key ch.ringSize with
    | error p => rfl
    | ok ih =>
      simp only
      split <;> rfl

/-- When a ring with strictly increasing slots, as many labels as slots and at
least one label gains pairs and stays so, the label a key resolves to is the
one it resolved to before or the label of a pair that was not there. -/
theorem label_after_gain {slots slots1 : List Nat} {nodes nodes1 : List GoString}
    (ringSize : Nat) (key : GoString)
    (hs : StrictlyIncreasing slots) (hlen : slots.length = nodes.length) (hne : nodes ≠ [])
    (hs1 : StrictlyIncreasing slots1) (hlen1 : slots1.length = nodes1.length)
    (hsub : ∀ p ∈ entries slots nodes, p ∈ entries slots1 nodes1) :
    ConsistentHasher.FindNodeFor ⟨nodes1, slots1, ringSize⟩ key =
        ConsistentHasher.FindNodeFor ⟨nodes, slots, ringSize⟩ key ∨
      ∃ p ∈ entries slots1 nodes1, p ∉ entries slots nodes ∧
        ConsistentHasher.FindNodeFor ⟨nodes1, slots1, ringSize⟩ key = .ok p.2 := by
  have hpos : 0 < nodes.length := List.length_pos.mpr hne
  have hpos1 : 0 < nodes1.length := by
    have h0 : 0 < slots.length := hlen ▸ hpos
    have := hsub _ (getElem_mem_entries h0 hpos)
    have := List.length_pos_of_mem (List.of_mem_zip this).2
    exact this
  cases hh : hashItem key ringSize with
  | error p =>
    left
    have e1 : nodes.length ≠ 0 := by omega
    have e2 : nodes1.length ≠ 0 := by omega
    simp only [ConsistentHasher.FindNodeFor, e1, e2, if_false, hh]
  | ok ih =>
    obtain ⟨hi, hf⟩ := @FindNodeFor_eq ⟨nodes, slots, ringSize⟩ key ih hh hs hlen hpos
    obtain ⟨hi1, hf1⟩ := @FindNodeFor_eq ⟨nodes1, slots1, ringSize⟩ key ih hh hs1 hlen1 hpos1
    simp only at hi hi1 hf hf1
    have hj1 : lookupIndex slots1 ih < slots1.length := hlen1 ▸ hi1
    rcases lookup_after_gain hs hlen hs1 hsub ih hi hi1 hj1 with heq | hnew
    · left
      rw [hf, hf1, heq]
    · right
      exact ⟨_, getElem_mem_entries hj1 hi1, hnew, hf1⟩

/-- C18. Minimal key movement on add: on a non-empty ring with strictly
increasing slots and as many labels as slots, if `AddNode(x)` returns no error
then, for every key, the label the key resolves to afterwards is the label it
resolved to before or a label inserted by this call. So on the basic ring
`FindNodeFor(key)` is afterwards its earlier result or `x`; on the virtual-node
ring the label (the lookup of the basic ring on the same slices) is the earlier
one or some `"x@i"` with `i` in `[0, vnodesPerNode)`, and `FindNodeFor(key)` is
its earlier result or `x` when `x` contains no `'@'`. -/
theorem minimal_movement :
    (∀ (ch ch1 : ConsistentHasher) (x key : GoString),
      StrictlyIncreasing ch.slots → ch.slots.length = ch.nodes.length → ch.nodes ≠ [] →
      ch.AddNode x = .ok (ch1, none) →
      ch1.FindNodeFor key = ch.FindNodeFor key ∨ ch1.FindNodeFor key = .ok x) ∧
    (∀ (ch ch1 : ConsistentHasherV) (x key : GoString),
      StrictlyIncreasing ch.slots → ch.slots.length = ch.nodes.length → ch.nodes ≠ [] →
      ch.AddNode x = .ok (ch1, none) →
      (ConsistentHasher.FindNodeFor ⟨ch1.nodes, ch1.slots, ch1.ringSize⟩ key =
          ConsistentHasher.FindNodeFor ⟨ch.nodes, ch.slots, ch.ringSize⟩ key ∨
        ∃ i : Nat, (i : Int) < ch.vnodesPerNode ∧
          ConsistentHasher.FindNodeFor ⟨ch1.nodes, ch1.slots, ch1.ringSize⟩ key =
            .ok (vnode x i)) ∧
      (atSign ∉ x →
        ch1.FindNodeFor key = ch.FindNodeFor key ∨ ch1.FindNodeFor key = .ok x)) := by
  constructor
  · intro ch ch1 x key hs hlen hne h
    rcases AddNode_outcome x hs hlen with ⟨_, h1⟩ | ⟨_, nh, hh, ⟨_, h1⟩ | ⟨hmem, h1⟩⟩
    · rw [h1] at h; cases h
    · rw [h1] at h; cases h
    · rw [h1] at h
      simp only [Except.ok.injEq, Prod.mk.injEq, and_true] at h
      subst h
      have hle := BinarySearch_le_length hs nh
      have hlen1 : (ch.slots.take (BinarySearch ch.slots nh).1 ++
          nh :: ch.slots.drop (BinarySearch ch.slots nh).1).length =
          (ch.nodes.take (BinarySearch ch.slots nh).1 ++
          x :: ch.nodes.drop (BinarySearch ch.slots nh).1).length := by
        simp only [List.length_append, List.length_take, List.length_cons, List.length_drop]
        omega
      have hsub : ∀ p ∈ entries ch.slots ch.nodes, p ∈ entries
          (ch.slots.take (BinarySearch ch.slots nh).1 ++
            nh :: ch.slots.drop (BinarySearch ch.slots nh).1)
          (ch.nodes.take (BinarySearch ch.slots nh).1 ++
            x :: ch.nodes.drop (BinarySearch ch.slots nh).1) := by
        intro p hp
        rw [entries_insert hlen]
        exact (sublist_insert _ _ _).subset hp
      rcases label_after_gain ch.ringSize key hs hlen hne (insert_sorted hs hmem) hlen1 hsub
        with heq | ⟨p, hp1, hp2, hp3⟩
      · exact Or.inl heq
      · right
        rw [entries_insert hlen] at hp1
        have hpx : p = (nh, x) := by
          rcases List.mem_append.mp hp1 with h2 | h2
          · exact absurd (List.mem_of_mem_take h2) hp2
          · rcases List.mem_cons.mp h2 with h3 | h3
            · exact h3
            · exact absurd (List.mem_of_mem_drop h3) hp2
        rw [hpx] at hp3
        exact hp3
  · intro ch ch1 x key hs hlen hne h
    rcases AddNodeV_cases h with ⟨_, he⟩ | h1
    · cases he
    · obtain ⟨r1, r2, r3, _, r5, _⟩ := addLoop_spec x _ ch ch1 none hs hlen h1
      obtain ⟨_, _, _, e4⟩ := addLoop_success_exact x _ ch ch1 hs hlen h1
      have hlab : ConsistentHasher.FindNodeFor ⟨ch1.nodes, ch1.slots, ch1.ringSize⟩ key =
          ConsistentHasher.FindNodeFor ⟨ch.nodes, ch.slots, ch.ringSize⟩ key ∨
        ∃ i : Nat, (i : Int) < ch.vnodesPerNode ∧
          ConsistentHasher.FindNodeFor ⟨ch1.nodes, ch1.slots, ch1.ringSize⟩ key =
            .ok (vnode x i) := by
        rw [r3]
        rcases label_after_gain ch.ringSize key hs hlen hne r1 r2 (fun p hp => r5.subset hp)
          with heq | ⟨p, hp1, hp2, hp3⟩
        · exact Or.inl heq
        · right
          rw [e4.mem_iff] at hp1
          rcases List.mem_append.mp hp1 with h2 | h2
          · exact absurd h2 hp2
          · obtain ⟨i, hi, rfl⟩ := List.mem_map.mp h2
            rw [List.mem_range] at hi
            exact ⟨i, by omega, hp3⟩
      refine ⟨hlab, ?_⟩
      intro hat
      rw [FindNodeForV_eq_bind ch1 key, FindNodeForV_eq_bind ch key]
      rcases hlab with heq | ⟨i, _, hi⟩
      · exact Or.inl (by rw [heq])
      · right
        rw [hi]
        exact nodeFromVnode_vnode hat i

/-- On the basic ring of size 16 with `"S1"`, `"S0"` at the slots 5, 14, after
`AddNode("a")` (slot 9) the key `"k"` (hash 7) moves to `"a"` and the key
`"v"` (hash 15) stays with `"S1"`; on the virtual-node ring of size 32 with 2
labels per node that holds the labels of `"S1"`, after `AddNode("S0")` the key
`"k"` (hash 7) moves to `"S0"`. -/
theorem minimal_movement_witness :
    (ConsistentHasher.AddNode ⟨[[83, 49], [83, 48]], [5, 14], 16⟩ [97] =
        .ok (⟨[[83, 49], [97], [83, 48]], [5, 9, 14], 16⟩, none) ∧
      ConsistentHasher.FindNodeFor ⟨[[83, 49], [83, 48]], [5, 14], 16⟩ [107] = .ok [83, 48] ∧
      ConsistentHasher.FindNodeFor ⟨[[83, 49], [97], [83, 48]], [5, 9, 14], 16⟩ [107] =
        .ok [97] ∧
      ConsistentHasher.FindNodeFor ⟨[[83, 49], [83, 48]], [5, 14], 16⟩ [118] = .ok [83, 49] ∧
      (ConsistentHasher.FindNodeFor ⟨[[83, 49], [97], [83, 48]], [5, 9, 14], 16⟩ [118] =
          ConsistentHasher.FindNodeFor ⟨[[83, 49], [83, 48]], [5, 14], 16⟩ [118] ∨
        ConsistentHasher.FindNodeFor ⟨[[83, 49], [97], [83, 48]], [5, 9, 14], 16⟩ [118] =
          .ok [97])) ∧
    (ConsistentHasherV.AddNode ⟨[[83, 49, 64, 48], [83, 49, 64, 49]], [20, 29], 32, 2⟩ [83, 48] =
        .ok (⟨[[83, 48, 64, 49], [83, 48, 64, 48], [83, 49, 64, 48], [83, 49, 64, 49]],
              [2, 18, 20, 29], 32, 2⟩, none) ∧
      ConsistentHasherV.FindNodeFor ⟨[[83, 49, 64, 48], [83, 49, 64, 49]], [20, 29], 32, 2⟩ [107]
        = .ok [83, 49] ∧
      (ConsistentHasherV.FindNodeFor
          ⟨[[83, 48, 64, 49], [83, 48, 64, 48], [83, 49, 64, 48], [83, 49, 64, 49]],
            [2, 18, 20, 29], 32, 2⟩ [107] =
          ConsistentHasherV.FindNodeFor
            ⟨[[83, 49, 64, 48], [83, 49, 64, 49]], [20, 29], 32, 2⟩ [107] ∨
        ConsistentHasherV.FindNodeFor
          ⟨[[83, 48, 64, 49], [83, 48, 64, 48], [83, 49, 64, 48], [83, 49, 64, 49]],
            [2, 18, 20, 29], 32, 2⟩ [107] = .ok [83, 48])) := by
  have h1 : ConsistentHasher.AddNode ⟨[[83, 49], [83, 48]], [5, 14], 16⟩ [97] =
      .ok (⟨[[83, 49], [97], [83, 48]], [5, 9, 14], 16⟩, none) := by decide
  have h2 : ConsistentHasherV.AddNode
      ⟨[[83, 49, 64, 48], [83, 49, 64, 49]], [20, 29], 32, 2⟩ [83, 48] =
      .ok (⟨[[83, 48, 64, 49], [83, 48, 64, 48], [83, 49, 64, 48], [83, 49, 64, 49]],
            [2, 18, 20, 29], 32, 2⟩, none) := by decide
  exact ⟨⟨h1, by decide, by decide, by decide,
      minimal_movement.1 _ _ [97] [118] (by decide) (by decide) (by decide) h1⟩,
    ⟨h2, by decide,
      (minimal_movement.2 _ _ [83, 48] [107] (by decide) (by decide) (by decide) h2).2
        (by decide)⟩⟩

end ConsistentHashing
